import Mathlib

/-!
Verification of the inode/tree core of ruplicity-fuse.

The definitions below are a shallow embedding of `src/fs/tree.rs`,
`src/fs/mod.rs` and `src/path_utils.rs`.  Signature records are pure data,
streams are lists, inodes are `Nat` (the source's `u64`; allocation is
counting from small starting values, so overflow cannot occur on the
quantified domains), and panics / io failures appear as `Option`/`Except`.
-/

set_option linter.unusedVariables false

/-- A path component, as produced by Rust's `Path::components()`. -/
inductive PComp : Type where
  | normal (s : String)
  | curDir
  | parentDir
  | rootDir
deriving DecidableEq, Repr

/-- Entry types of signature records (`ruplicity::signatures::EntryType`). -/
inductive EntryType : Type where
  | file
  | hardLink
  | symLink
  | dir
  | fifo
  | unknown (b : Nat)
deriving DecidableEq, Repr

/-- FUSE file types (the variants used by `src/fs/mod.rs`). -/
inductive FileType : Type where
  | regularFile
  | directory
  | symlink
  | namedPipe
deriving DecidableEq, Repr

/-- An OS path value (symlink target or lookup name): its raw unix byte
sequence together with the result of `to_str()` (`none` when the path is
not valid UTF-8). -/
structure PathB : Type where
  bytes : List Nat
  utf8 : Option String
deriving DecidableEq, Repr

/-- A signature record (`ruplicity::signatures::Entry`), restricted to the
accessors the core calls: `path`, `entry_type`, `mode`, `userid`,
`groupid`, `mtime`, `size_hint`, `linked_path`. -/
structure SigEntry : Type where
  path : List PComp
  entry_type : EntryType
  mode : Option Nat
  userid : Option Nat
  groupid : Option Nat
  mtime : Int
  size_hint : Option (Nat × Nat)
  linked_path : Option PathB
deriving DecidableEq, Repr

/-- `TreeNode` (src/fs/tree.rs 38-48): stream index, inode, children in
stream order. -/
inductive TreeNode : Type where
  | mk (index : Nat) (ino : Nat) (children : List TreeNode)

def TreeNode.index : TreeNode → Nat
  | .mk i _ _ => i

def TreeNode.ino : TreeNode → Nat
  | .mk _ n _ => n

def TreeNode.children : TreeNode → List TreeNode
  | .mk _ _ c => c

@[simp]
theorem TreeNode.index_mk (i n : Nat) (c : List TreeNode) : (TreeNode.mk i n c).index = i := rfl

@[simp]
theorem TreeNode.ino_mk (i n : Nat) (c : List TreeNode) : (TreeNode.mk i n c).ino = n := rfl

@[simp]
theorem TreeNode.children_mk (i n : Nat) (c : List TreeNode) :
    (TreeNode.mk i n c).children = c := rfl

mutual

/-- Second component of `TreeNode::inodes` (src/fs/tree.rs 182-188): the
last child's `inodes().1`, or the node's own inode when childless. -/
def TreeNode.inodesHigh : TreeNode → Nat
  | .mk _ ino ch => lastHigh ino ch

/-- `lastHigh d cs` is `cs.last.inodesHigh`, or `d` when `cs` is empty. -/
def lastHigh : Nat → List TreeNode → Nat
  | d, [] => d
  | _, c :: cs => lastHigh (TreeNode.inodesHigh c) cs

end

/-- `TreeNode::inodes` (src/fs/tree.rs 182-188): the inode interval
`(first, last)` of the node's subtree. -/
def TreeNode.inodes (n : TreeNode) : Nat × Nat := (n.ino, n.inodesHigh)

mutual

/-- All inodes assigned in a node's subtree (the node itself included). -/
def TreeNode.subtreeInos : TreeNode → List Nat
  | .mk _ ino ch => ino :: subtreeInosList ch

def subtreeInosList : List TreeNode → List Nat
  | [] => []
  | c :: cs => c.subtreeInos ++ subtreeInosList cs

end

mutual

/-- All nodes of a subtree, the subtree root included. -/
def TreeNode.allNodes : TreeNode → List TreeNode
  | .mk i ino ch => .mk i ino ch :: allNodesList ch

def allNodesList : List TreeNode → List TreeNode
  | [] => []
  | c :: cs => c.allNodes ++ allNodesList cs

end

/-- `TreeNode::new_children` (src/fs/tree.rs 137-180): peek the next
record; stop when the stream ends or the record has no component at
`path_depth`; otherwise build a child (the mutually recursive
`TreeNode::new` is inlined here: it consumes the peeked record and builds
the grandchildren one depth down, see `TreeNode.new` below) and advance
`ino`/`index` by the number of inodes the child consumed.

`fuel` makes the recursion structural and is inert whenever
`fuel ≥ entries.length`: building a child consumes at least one record,
so the stream shrinks below any initial bound. -/
def TreeNode.new_children (fuel : Nat) (path_depth index first_ino : Nat)
    (entries : List SigEntry) : List TreeNode × List SigEntry :=
  match entries with
  | [] => ([], [])
  | e :: rest =>
    if path_depth < e.path.length then
      match fuel with
      | 0 => ([], e :: rest)
      | f + 1 =>
        -- `TreeNode::new (path_depth + 1) index first_ino` on `e :: rest`:
        -- consume `e`, then build the children of the new node
        let rc := TreeNode.new_children f (path_depth + 1) (index + 1) (first_ino + 1) rest
        let child : TreeNode := .mk index first_ino rc.1
        let rest1 := rc.2
        let child_entries := child.inodes.2 - first_ino + 1
        let r := TreeNode.new_children f path_depth (index + child_entries)
          (first_ino + child_entries) rest1
        (child :: r.1, r.2)
    else ([], e :: rest)

/-- `TreeNode::new` (src/fs/tree.rs 119-135): consume one record and
attach the children built by `TreeNode::new_children`. -/
def TreeNode.new (fuel path_depth index ino : Nat) (entries : List SigEntry) :
    Option (TreeNode × List SigEntry) :=
  match entries with
  | [] => none
  | _ :: rest =>
    match fuel with
    | 0 => none
    | f + 1 =>
      let r := TreeNode.new_children f path_depth (index + 1) (ino + 1) rest
      some (.mk index ino r.1, r.2)

/-- `SnapshotTree` (src/fs/tree.rs 11-17).  The `snapshot_ino` field is
modelled from the spec: "`snapshot_ino()`: the inode of the snapshot
directory itself (held alongside the tree)" — the field and the
three-argument constructor are code of this repository missing from src/
(only the caller `RuplicityFs::tree_for_snapshot` is present). -/
structure SnapshotTree : Type where
  snapshot_ino : Nat
  root : TreeNode

/-- `SnapshotTree::new` (src/fs/tree.rs 52-67): build the root from the
stream, or synthesize a dummy root with no children. -/
def SnapshotTree.new (entries : List SigEntry) (sino first_ino : Nat) : SnapshotTree :=
  let root :=
    match TreeNode.new entries.length 0 0 first_ino entries with
    | some (node, _) => node
    | none => .mk 0 first_ino []
  { snapshot_ino := sino, root := root }

/-- `SnapshotTree::inodes` (src/fs/tree.rs 69-74). -/
def SnapshotTree.inodes (t : SnapshotTree) : Option (Nat × Nat) :=
  match t.root.children.head?, t.root.children.getLast? with
  | some first, some last => some (first.inodes.1, last.inodes.2)
  | _, _ => none

/-- A found node together with its depth (src/fs/tree.rs 32-35). -/
structure NodeEntry : Type where
  node : TreeNode
  depth : Nat

/-- Rust `<[T]>::binary_search_by` specialised to the comparator of
`SnapshotTree::find_node` (src/fs/tree.rs 99-108): the comparator
returns `Less` when `ino < first(c)` (then the search moves right) and
`Greater` when `ino > last(c)` (then the search moves left).  `fuel`
makes the loop structural; it is inert whenever `fuel ≥ right - left`
because the span shrinks at every iteration. -/
def binarySearchGo (cs : List TreeNode) (ino : Nat) :
    Nat → Nat → Nat → Option Nat
  | 0, _, _ => none
  | f + 1, left, right =>
    if left < right then
      let mid := left + (right - left) / 2
      match cs.get? mid with
      | none => none
      | some c =>
        if ino < c.inodes.1 then binarySearchGo cs ino f (mid + 1) right
        else if ino > c.inodes.2 then binarySearchGo cs ino f left mid
        else some mid
    else none

/-- `node.children.binary_search_by(..)` as called by `find_node`. -/
def binarySearchChildren (cs : List TreeNode) (ino : Nat) : Option Nat :=
  binarySearchGo cs ino cs.length 0 cs.length

/-- The recursive helper of `SnapshotTree::find_node`
(src/fs/tree.rs 88-113).  `fuel` makes the descent structural and is
inert whenever `fuel` is at least the height of the tree (the top-level
call uses the subtree node count). -/
def findNodeRec (ino : Nat) : Nat → TreeNode → Nat → Option NodeEntry
  | 0, _, _ => none
  | f + 1, node, depth =>
    if node.ino = ino then some ⟨node, depth⟩
    else if ino < node.inodes.1 ∨ node.inodes.2 < ino then none
    else
      match binarySearchChildren node.children ino with
      | some idx =>
        match node.children.get? idx with
        | some c => findNodeRec ino f c (depth + 1)
        | none => none
      | none => none

/-- `SnapshotTree::find_node` (src/fs/tree.rs 87-115). -/
def SnapshotTree.find_node (t : SnapshotTree) (ino : Nat) : Option NodeEntry :=
  findNodeRec ino t.root.allNodes.length t.root 0

/-! ## Attributes (src/fs/mod.rs) -/

/-- The FUSE attribute record built by `src/fs/mod.rs`. -/
structure FileAttr : Type where
  ino : Nat
  size : Nat
  blocks : Nat
  atime : Int
  mtime : Int
  ctime : Int
  crtime : Int
  kind : FileType
  perm : Nat
  nlink : Nat
  uid : Nat
  gid : Nat
  rdev : Nat
  flags : Nat
deriving DecidableEq, Repr

/-- `from_entry_type` (src/fs/mod.rs 448-457). -/
def from_entry_type : EntryType → FileType
  | .file => .regularFile
  | .hardLink => .regularFile
  | .unknown _ => .regularFile
  | .dir => .directory
  | .symLink => .symlink
  | .fifo => .namedPipe

/-- `RuplicityFs::attr_entry` (src/fs/mod.rs 284-302); `perm` is the
source's `p as u16`, i.e. the mode reduced modulo `2^16`. -/
def attr_entry (entry : SigEntry) (ino : Nat) : FileAttr :=
  { ino := ino
    size := (entry.size_hint.map (fun sh => sh.2)).getD 0
    blocks := 0
    atime := entry.mtime
    mtime := entry.mtime
    ctime := entry.mtime
    crtime := entry.mtime
    kind := from_entry_type entry.entry_type
    perm := (entry.mode.map (fun p => p % 65536)).getD 0o777
    nlink := 0
    uid := entry.userid.getD 100
    gid := entry.groupid.getD 100
    rdev := 0
    flags := 0 }

/-- `RuplicityFs::attr_snapshot` (src/fs/mod.rs 263-281). -/
def attr_snapshot (time : Int) (ino : Nat) : FileAttr :=
  { ino := ino
    size := 0
    blocks := 0
    atime := time
    mtime := time
    ctime := time
    crtime := time
    kind := .directory
    perm := 0o555
    nlink := 0
    uid := 0
    gid := 0
    rdev := 0
    flags := 0 }

/-- The attributes of the mount root (`RuplicityFs::getattr_root`,
src/fs/mod.rs 51-70); `now` is the value of `time::get_time()`. -/
def attr_root (now : Int) : FileAttr :=
  { ino := 1
    size := 0
    blocks := 0
    atime := now
    mtime := now
    ctime := now
    crtime := now
    kind := .directory
    perm := 0o555
    nlink := 0
    uid := 0
    gid := 0
    rdev := 0
    flags := 0 }

/-! ## Snapshot index (src/fs/mod.rs 399-440) -/

/-- `SnapshotsInos::sid_from_ino` (src/fs/mod.rs 423-426).  The source
asserts `ino >= 2`; every caller guards the call with `ino == 1` /
`is_snapshot` classification. -/
def sid_from_ino (ino : Nat) : Nat := ino - 2

/-- `SnapshotsInos::ino_from_sid` (src/fs/mod.rs 428-430). -/
def ino_from_sid (sid : Nat) : Nat := sid + 2

/-! ## Concrete streams used as test vectors (spec §8, scenario S2) -/

/-- A signature record with the given path components and no optional
attributes. -/
def plainRecord (p : List PComp) : SigEntry :=
  { path := p, entry_type := .file, mode := none, userid := none,
    groupid := none, mtime := 0, size_hint := none, linked_path := none }

/-- The S2 stream: `[root, "a", "a/b", "a/b/c", "d"]`. -/
def s2Records : List SigEntry :=
  [plainRecord [],
   plainRecord [.normal "a"],
   plainRecord [.normal "a", .normal "b"],
   plainRecord [.normal "a", .normal "b", .normal "c"],
   plainRecord [.normal "d"]]

/-- The S2 tree, materialised with snapshot inode 2 and allocator start 3. -/
def s2Tree : SnapshotTree := SnapshotTree.new s2Records 2 3

/-! ## Claims C5, C2, C7, C8 -/

/-- **C5**: for the signature stream `[root, "a", "a/b", "a/b/c", "d"]`
and inode allocator starting at 3, construction yields a root node with
inode 3 whose children are `a` (inode 4) and `d` (inode 7), `a` having
child `b` (inode 5) and `b` having child `c` (inode 6).  (The stream
indices 0..4 follow the stream order.) -/
theorem claim_C5 (sino : Nat) :
    (SnapshotTree.new s2Records sino 3).root =
      .mk 0 3 [.mk 1 4 [.mk 2 5 [.mk 3 6 []]], .mk 4 7 []] := rfl

/-- **C2** (failing-input evaluation): on the S2 tree, inode 6 is
assigned (it appears among the subtree inodes) and is inside the root
interval, yet `find_node 6` returns `none`: the comparator given to
`binary_search_by` in src/fs/tree.rs 99-108 compares the target against
the element (`Less` when `ino < first`) instead of the element against
the target, so the search walks away from the matching child whenever
the target is not inside the probed middle child.  The spec's S2
scenario requires `find_node(6)` to return the depth-3 node `c`. -/
theorem claim_C2_find_node_misses_assigned_ino :
    6 ∈ s2Tree.root.subtreeInos ∧ s2Tree.find_node 6 = none := by
  constructor
  · show 6 ∈ [3, 4, 5, 6, 7]
    simp
  · rfl

/-- **C7**: `sid_from_ino` and `ino_from_sid` are mutually inverse:
`sid_from_ino (ino_from_sid s) = s` for every sid, and
`ino_from_sid (sid_from_ino ino) = ino` for every `ino ≥ 2` (the
precondition asserted by the source). -/
theorem claim_C7 :
    (∀ s : Nat, sid_from_ino (ino_from_sid s) = s) ∧
    (∀ ino : Nat, 2 ≤ ino → ino_from_sid (sid_from_ino ino) = ino) := by
  constructor
  · intro s
    simp [sid_from_ino, ino_from_sid]
  · intro ino h
    simp only [sid_from_ino, ino_from_sid]
    omega

/-- Witness for C7 at sid 5 and inode 7. -/
theorem claim_C7_witness :
    sid_from_ino (ino_from_sid 5) = 5 ∧ ino_from_sid (sid_from_ino 7) = 7 :=
  ⟨claim_C7.1 5, claim_C7.2 7 (by decide)⟩

/-- **C8**: the attributes produced for a signature record have
`size` = the upper bound of the size hint (0 if absent), `perm` = the
lower 16 bits of the stored mode (`0o777` if absent), `uid`/`gid` = the
stored ids (100 each if absent), and all four timestamps equal to the
record's mtime. -/
theorem claim_C8 (e : SigEntry) (ino : Nat) :
    (attr_entry e ino).size = (match e.size_hint with
      | some sh => sh.2
      | none => 0) ∧
    (attr_entry e ino).perm = (match e.mode with
      | some p => p % 2 ^ 16
      | none => 0o777) ∧
    (attr_entry e ino).uid = (match e.userid with
      | some u => u
      | none => 100) ∧
    (attr_entry e ino).gid = (match e.groupid with
      | some g => g
      | none => 100) ∧
    (attr_entry e ino).atime = e.mtime ∧
    (attr_entry e ino).mtime = e.mtime ∧
    (attr_entry e ino).ctime = e.mtime ∧
    (attr_entry e ino).crtime = e.mtime := by
  obtain ⟨p, et, m, u, g, mt, sh, lp⟩ := e
  refine ⟨?_, ?_, ?_, ?_, rfl, rfl, rfl, rfl⟩
  · cases sh <;> rfl
  · cases m <;> rfl
  · cases u <;> rfl
  · cases g <;> rfl

/-! ## Construction invariants (claim C1) -/

/-- `(TreeNode.mk i n ch).inodesHigh` unfolds to `lastHigh n ch`. -/
theorem inodesHigh_mk (i n : Nat) (ch : List TreeNode) :
    (TreeNode.mk i n ch).inodesHigh = lastHigh n ch := by
  simp [TreeNode.inodesHigh]

@[simp]
theorem lastHigh_nil (d : Nat) : lastHigh d [] = d := by
  simp [lastHigh]

@[simp]
theorem lastHigh_cons (d : Nat) (c : TreeNode) (cs : List TreeNode) :
    lastHigh d (c :: cs) = lastHigh c.inodesHigh cs := by
  simp [lastHigh]

/-- The well-formedness invariant established by `TreeNode::new_children`:
a list of siblings occupies consecutive inode blocks starting at `n`,
recursively at every level. -/
inductive WfChain : Nat → List TreeNode → Prop where
  | nil (n : Nat) : WfChain n []
  | cons (index n : Nat) (ch cs : List TreeNode) :
      WfChain (n + 1) ch →
      WfChain ((TreeNode.mk index n ch).inodesHigh + 1) cs →
      WfChain n (TreeNode.mk index n ch :: cs)

/-- A node is well formed when its children chain from `ino + 1`. -/
def TreeNode.wfIno (t : TreeNode) : Prop := WfChain (t.ino + 1) t.children

theorem WfChain.head_ino {n : Nat} {c : TreeNode} {cs : List TreeNode}
    (h : WfChain n (c :: cs)) :
    c.ino = n ∧ c.wfIno ∧ WfChain (c.inodesHigh + 1) cs := by
  cases h with
  | cons index n ch cs h1 h2 =>
    exact ⟨rfl, h1, h2⟩

/-- In a well-formed chain the running high never drops: `lastHigh d cs ≥ d`
whenever the chain starts above `d`. -/
theorem WfChain.le_lastHigh {n : Nat} {cs : List TreeNode} (h : WfChain n cs) :
    ∀ d, d < n → d ≤ lastHigh d cs := by
  induction h with
  | nil n =>
    intro d hd
    simp
  | cons index n ch cs h1 h2 ih1 ih2 =>
    intro d hd
    have hhigh : n ≤ (TreeNode.mk index n ch).inodesHigh := by
      rw [inodesHigh_mk]
      exact ih1 n (Nat.lt_succ_self n)
    have := ih2 (TreeNode.mk index n ch).inodesHigh (Nat.lt_succ_self _)
    simp only [lastHigh_cons]
    omega

/-- A well-formed node's interval is nonempty: `ino ≤ inodesHigh`. -/
theorem TreeNode.wfIno.lo_le_hi {t : TreeNode} (h : t.wfIno) :
    t.ino ≤ t.inodesHigh := by
  cases t with
  | mk i n ch =>
    rw [inodesHigh_mk]
    exact WfChain.le_lastHigh h n (Nat.lt_succ_self n)

/-- The inode that follows a chain of siblings starting at `n`. -/
def chainNext : Nat → List TreeNode → Nat
  | n, [] => n
  | n, c :: cs => chainNext (c.inodesHigh + 1) cs

/-- In a well-formed chain `chainNext (d + 1) cs = lastHigh d cs + 1`. -/
theorem WfChain.chainNext_eq {n : Nat} {cs : List TreeNode} (h : WfChain n cs) :
    ∀ d, n = d + 1 → chainNext n cs = lastHigh d cs + 1 := by
  induction h with
  | nil n =>
    intro d hd
    simp [chainNext, hd]
  | cons index n ch cs h1 h2 ih1 ih2 =>
    intro d hd
    simp only [chainNext, lastHigh_cons]
    exact ih2 (TreeNode.mk index n ch).inodesHigh rfl

theorem WfChain.le_chainNext {n : Nat} {cs : List TreeNode} (h : WfChain n cs) :
    n ≤ chainNext n cs := by
  cases cs with
  | nil => simp [chainNext]
  | cons c cs' =>
    obtain ⟨h0, hwf, hrest⟩ := h.head_ino
    have h1 : chainNext (c.inodesHigh + 1) cs' = lastHigh c.inodesHigh cs' + 1 :=
      hrest.chainNext_eq c.inodesHigh rfl
    have h2 := hrest.le_lastHigh c.inodesHigh (Nat.lt_succ_self _)
    have h3 : c.ino ≤ c.inodesHigh := hwf.lo_le_hi
    simp only [chainNext]
    omega

@[simp]
theorem subtreeInos_mk (i n : Nat) (ch : List TreeNode) :
    (TreeNode.mk i n ch).subtreeInos = n :: subtreeInosList ch := by
  simp [TreeNode.subtreeInos]

@[simp]
theorem subtreeInosList_nil : subtreeInosList [] = [] := by
  simp [subtreeInosList]

@[simp]
theorem subtreeInosList_cons (c : TreeNode) (cs : List TreeNode) :
    subtreeInosList (c :: cs) = c.subtreeInos ++ subtreeInosList cs := by
  simp [subtreeInosList]

@[simp]
theorem allNodes_mk (i n : Nat) (ch : List TreeNode) :
    (TreeNode.mk i n ch).allNodes = TreeNode.mk i n ch :: allNodesList ch := by
  simp [TreeNode.allNodes]

@[simp]
theorem allNodesList_nil : allNodesList [] = [] := by
  simp [allNodesList]

@[simp]
theorem allNodesList_cons (c : TreeNode) (cs : List TreeNode) :
    allNodesList (c :: cs) = c.allNodes ++ allNodesList cs := by
  simp [allNodesList]

theorem mem_allNodes_self (t : TreeNode) : t ∈ t.allNodes := by
  cases t with
  | mk i n ch => simp

theorem mem_allNodesList_of_mem {c : TreeNode} {cs : List TreeNode} (h : c ∈ cs) :
    c ∈ allNodesList cs := by
  induction cs with
  | nil => cases h
  | cons c' cs' ih =>
    rcases List.mem_cons.mp h with rfl | h'
    · exact List.mem_append_left _ (mem_allNodes_self c)
    · exact List.mem_append_right _ (ih h')

/-- `TreeNode::new_children` always produces a well-formed chain starting
at `first_ino`, for every stream and every fuel. -/
theorem new_children_wfChain (f : Nat) :
    ∀ (d i n : Nat) (es : List SigEntry),
      WfChain n (TreeNode.new_children f d i n es).1 := by
  induction f with
  | zero =>
    intro d i n es
    cases es with
    | nil => exact WfChain.nil n
    | cons e rest =>
      by_cases h : d < e.path.length <;>
        simp only [TreeNode.new_children, if_pos, if_neg, h] <;> exact WfChain.nil n
  | succ f ih =>
    intro d i n es
    cases es with
    | nil => exact WfChain.nil n
    | cons e rest =>
      by_cases h : d < e.path.length
      · have hrc : WfChain (n + 1) (TreeNode.new_children f (d + 1) (i + 1) (n + 1) rest).1 :=
          ih (d + 1) (i + 1) (n + 1) rest
        have hhigh :
            n ≤ (TreeNode.mk i n (TreeNode.new_children f (d + 1) (i + 1) (n + 1) rest).1).inodesHigh := by
          rw [inodesHigh_mk]
          exact WfChain.le_lastHigh hrc n (Nat.lt_succ_self n)
        simp only [TreeNode.new_children, if_pos h, TreeNode.inodes]
        have harith :
            n + ((TreeNode.mk i n (TreeNode.new_children f (d + 1) (i + 1) (n + 1) rest).1).inodesHigh - n + 1) =
              (TreeNode.mk i n (TreeNode.new_children f (d + 1) (i + 1) (n + 1) rest).1).inodesHigh + 1 := by
          omega
        rw [harith]
        exact WfChain.cons i n _ _ hrc (ih _ _ _ _)
      · simp only [TreeNode.new_children, if_neg h]
        exact WfChain.nil n

/-- A well-formed chain's assigned inodes are exactly the interval
`[n, chainNext n cs)`. -/
theorem WfChain.mem_subtreeInosList {n : Nat} {cs : List TreeNode} (h : WfChain n cs) :
    ∀ m, m ∈ subtreeInosList cs ↔ n ≤ m ∧ m < chainNext n cs := by
  induction h with
  | nil n =>
    intro m
    simp [chainNext]
  | cons index n ch cs h1 h2 ih1 ih2 =>
    intro m
    have hnext : chainNext (n + 1) ch = lastHigh n ch + 1 := h1.chainNext_eq n rfl
    have hhigh : n ≤ lastHigh n ch := h1.le_lastHigh n (Nat.lt_succ_self n)
    have hcn := h2.le_chainNext
    rw [inodesHigh_mk] at hcn
    simp only [subtreeInosList_cons, subtreeInos_mk, List.mem_append, List.mem_cons,
      chainNext, inodesHigh_mk]
    rw [ih1 m, ih2 m, hnext, inodesHigh_mk]
    omega

/-- Every node reachable inside a well-formed chain is well formed. -/
theorem WfChain.allNodes_wf {n : Nat} {cs : List TreeNode} (h : WfChain n cs) :
    ∀ N ∈ allNodesList cs, N.wfIno := by
  induction h with
  | nil n => simp
  | cons index n ch cs h1 h2 ih1 ih2 =>
    intro N hN
    simp only [allNodesList_cons, allNodes_mk, List.mem_append, List.mem_cons] at hN
    rcases hN with (rfl | hN) | hN
    · exact h1
    · exact ih1 N hN
    · exact ih2 N hN

/-- Every member of a well-formed chain has inode at least the chain start. -/
theorem WfChain.mem_ino_ge {n : Nat} {cs : List TreeNode} (h : WfChain n cs) :
    ∀ b ∈ cs, n ≤ b.ino := by
  induction h with
  | nil n => simp
  | cons index n ch cs h1 h2 ih1 ih2 =>
    intro b hb
    have hhigh : n ≤ lastHigh n ch := h1.le_lastHigh n (Nat.lt_succ_self n)
    rcases List.mem_cons.mp hb with rfl | hb'
    · simp
    · have := ih2 b hb'
      rw [inodesHigh_mk] at this
      omega

/-- Consecutive members of a well-formed chain have contiguous intervals. -/
theorem WfChain.chain'_contig {n : Nat} {cs : List TreeNode} (h : WfChain n cs) :
    List.Chain' (fun a b => b.ino = a.inodesHigh + 1) cs := by
  induction h with
  | nil n => simp
  | cons index n ch cs h1 h2 ih1 ih2 =>
    cases cs with
    | nil => simp
    | cons c' cs' =>
      have hc' := h2.head_ino
      exact List.Chain'.cons hc'.1 ih2

/-- Members of a well-formed chain are pairwise strictly increasing:
an earlier member's interval ends below a later member's start. -/
theorem WfChain.pairwise_lt {n : Nat} {cs : List TreeNode} (h : WfChain n cs) :
    List.Pairwise (fun a b => a.inodesHigh < b.ino) cs := by
  induction h with
  | nil n => simp
  | cons index n ch cs h1 h2 ih1 ih2 =>
    refine List.Pairwise.cons ?_ ih2
    intro b hb
    have := h2.mem_ino_ge b hb
    omega

/-- The subtree inodes of a well-formed node are exactly the contiguous
interval returned by `inodes()`. -/
theorem TreeNode.wfIno.mem_subtreeInos {t : TreeNode} (h : t.wfIno) :
    ∀ m, m ∈ t.subtreeInos ↔ t.ino ≤ m ∧ m ≤ t.inodesHigh := by
  cases t with
  | mk i n ch =>
    intro m
    have h' : WfChain (n + 1) ch := h
    have h1 := h'.mem_subtreeInosList m
    have h2 : chainNext (n + 1) ch = lastHigh n ch + 1 := h'.chainNext_eq n rfl
    have h3 : n ≤ lastHigh n ch := h'.le_lastHigh n (Nat.lt_succ_self n)
    simp only [subtreeInos_mk, List.mem_cons, inodesHigh_mk, TreeNode.ino_mk]
    rw [h1, h2]
    omega

/-- The root produced by `SnapshotTree::new` is well formed. -/
theorem SnapshotTree.new_root_wf (es : List SigEntry) (sino first_ino : Nat) :
    (SnapshotTree.new es sino first_ino).root.wfIno := by
  cases es with
  | nil => exact WfChain.nil _
  | cons e rest =>
    show TreeNode.wfIno (TreeNode.mk 0 first_ino
      (TreeNode.new_children (e :: rest).length.pred 0 1 (first_ino + 1) rest).1)
    exact new_children_wfChain _ 0 1 (first_ino + 1) rest

/-- Every node of a tree with a well-formed root is well formed. -/
theorem TreeNode.wfIno.allNodes_wfIno {t : TreeNode} (h : t.wfIno) :
    ∀ N ∈ t.allNodes, N.wfIno := by
  cases t with
  | mk i n ch =>
    intro N hN
    simp only [allNodes_mk, List.mem_cons] at hN
    rcases hN with rfl | hN
    · exact h
    · exact WfChain.allNodes_wf h N hN

/-- **C1**: for every signature stream and allocator start, and for every
node `N` of the constructed tree, the children's inode intervals are
contiguous (each starts one past the previous one's end), pairwise
strictly increasing (hence non-overlapping) and nonempty, and the set of
inodes assigned in `N`'s subtree is exactly the contiguous interval
returned by `N.inodes()`. -/
theorem claim_C1 (es : List SigEntry) (sino first_ino : Nat) (N : TreeNode)
    (hN : N ∈ (SnapshotTree.new es sino first_ino).root.allNodes) :
    List.Chain' (fun a b => b.inodes.1 = a.inodes.2 + 1) N.children ∧
    List.Pairwise (fun a b => a.inodes.2 < b.inodes.1) N.children ∧
    (∀ c ∈ N.children, c.inodes.1 ≤ c.inodes.2) ∧
    (∀ m, m ∈ N.subtreeInos ↔ N.inodes.1 ≤ m ∧ m ≤ N.inodes.2) := by
  have hwf : N.wfIno := (SnapshotTree.new_root_wf es sino first_ino).allNodes_wfIno N hN
  have hch : WfChain (N.ino + 1) N.children := hwf
  refine ⟨hch.chain'_contig, hch.pairwise_lt, ?_, hwf.mem_subtreeInos⟩
  intro c hc
  have hcwf : c.wfIno := WfChain.allNodes_wf hch c (mem_allNodesList_of_mem hc)
  exact hcwf.lo_le_hi

/-- Witness for C1: the root of the S2 tree. -/
theorem claim_C1_witness :
    s2Tree.root ∈ s2Tree.root.allNodes ∧
    (List.Chain' (fun a b => b.inodes.1 = a.inodes.2 + 1) s2Tree.root.children ∧
     List.Pairwise (fun a b => a.inodes.2 < b.inodes.1) s2Tree.root.children ∧
     (∀ c ∈ s2Tree.root.children, c.inodes.1 ≤ c.inodes.2) ∧
     (∀ m, m ∈ s2Tree.root.subtreeInos ↔
        s2Tree.root.inodes.1 ≤ m ∧ m ≤ s2Tree.root.inodes.2)) :=
  ⟨mem_allNodes_self _, claim_C1 s2Records 2 3 s2Tree.root (mem_allNodes_self _)⟩

/-! ## The filesystem state (src/fs/mod.rs) -/

/-- One snapshot of the backup, as the core observes it: the directory
name produced by `time_to_path(snapshot.time())` (time formatting is an
external collaborator), the snapshot time, and the signature stream
returned by `snapshot.entries()`. -/
structure SnapshotData : Type where
  pathName : String
  time : Int
  entries : List SigEntry
deriving DecidableEq, Repr

/-- `SnapshotsInos` (src/fs/mod.rs 30-32, 399-440): the `HashMap` is
modelled as the insertion list of `(name, sid)` bindings; a lookup takes
the binding inserted last, and the map's length counts distinct keys. -/
structure SnapshotsInos : Type where
  paths : List (String × Nat)
deriving DecidableEq, Repr

/-- `SnapshotsInos::new` (src/fs/mod.rs 401-408). -/
def SnapshotsInos.new (backup : List SnapshotData) : SnapshotsInos :=
  ⟨backup.enum.map (fun p => (p.2.pathName, p.1))⟩

/-- `HashMap::len` after the inserts: the number of distinct keys. -/
def SnapshotsInos.len (s : SnapshotsInos) : Nat :=
  (s.paths.map Prod.fst).dedup.length

/-- `SnapshotsInos::sid_from_path` (src/fs/mod.rs 419-421): the source
calls `name.to_str().unwrap()`, so a name that is not valid UTF-8
panics (the `Except.error` case). -/
def SnapshotsInos.sid_from_path (s : SnapshotsInos) (name : PathB) :
    Except Unit (Option Nat) :=
  match name.utf8 with
  | none => .error ()
  | some str => .ok ((s.paths.reverse.find? (fun p => p.1 == str)).map Prod.snd)

/-- `SnapshotsInos::last_ino` (src/fs/mod.rs 432-434). -/
def SnapshotsInos.last_ino (s : SnapshotsInos) : Nat := ino_from_sid s.len

/-- `SnapshotsInos::is_snapshot` (src/fs/mod.rs 437-439). -/
def SnapshotsInos.is_snapshot (s : SnapshotsInos) (ino : Nat) : Prop :=
  2 ≤ ino ∧ ino < ino_from_sid s.len

instance (s : SnapshotsInos) (ino : Nat) : Decidable (s.is_snapshot ino) :=
  inferInstanceAs (Decidable (_ ∧ _))

/-- `RuplicityFs` (src/fs/mod.rs 23-28). -/
structure RuplicityFs : Type where
  backup : List SnapshotData
  snapshots : SnapshotsInos
  trees : List (Option SnapshotTree)
  last_ino : Nat

/-- `RuplicityFs::new` (src/fs/mod.rs 37-48). -/
def RuplicityFs.new (backup : List SnapshotData) : RuplicityFs :=
  let spaths := SnapshotsInos.new backup
  { backup := backup
    snapshots := spaths
    trees := List.replicate spaths.len none
    last_ino := spaths.last_ino }

/-- `RuplicityFs::snapshot_from_sid` (src/fs/mod.rs 304-309);
`none` is the io error (snapshot not found). -/
def RuplicityFs.snapshot_from_sid (fs : RuplicityFs) (sid : Nat) : Option SnapshotData :=
  fs.backup.get? sid

/-- `RuplicityFs::tree_for_snapshot` (src/fs/mod.rs 316-338): return the
cached tree, or build one starting at `last_ino + 1`, advance `last_ino`
to the new tree's last inode (when it has one) and store it.  `none`
covers the io-error and out-of-bounds-panic paths, on which no tree is
installed. -/
def RuplicityFs.tree_for_snapshot (fs : RuplicityFs) (sid : Nat) :
    Option (SnapshotTree × SnapshotData × RuplicityFs) :=
  match fs.trees.get? sid with
  | none => none
  | some (some t) =>
    match fs.snapshot_from_sid sid with
    | none => none
    | some snap => some (t, snap, fs)
  | some none =>
    match fs.snapshot_from_sid sid with
    | none => none
    | some snap =>
      let t := SnapshotTree.new snap.entries (ino_from_sid sid) (fs.last_ino + 1)
      let last' :=
        match t.inodes with
        | some p => p.2
        | none => fs.last_ino
      -- the source stores the tree and recurses; the recursive call
      -- returns the tree just stored
      some (t, snap, { fs with trees := fs.trees.set sid (some t), last_ino := last' })

/-- `RuplicityFs::find_tree_with_ino` (src/fs/mod.rs 341-361): the first
materialised tree whose snapshot inode equals `ino` or whose interval
covers `ino`, together with its sid. -/
def RuplicityFs.find_tree_with_ino (fs : RuplicityFs) (ino : Nat) :
    Option (SnapshotTree × Nat) :=
  match fs.trees.enum.find? (fun p =>
    match p.2 with
    | some tree =>
      tree.snapshot_ino == ino ||
        (match tree.inodes with
         | some fl => decide (fl.1 ≤ ino ∧ ino ≤ fl.2)
         | none => false)
    | none => false) with
  | some (sid, some tree) => some (tree, sid)
  | _ => none

/-! ## Registry invariants (claim C3) -/

/-- The inodes a materialised tree hands out: every inode of the subtrees
under the (dummy) root.  The root node itself is unreachable: the source
comments "The root node is not used; only its children are"
(src/fs/tree.rs 13-15). -/
def assignedInos (t : SnapshotTree) : List Nat := subtreeInosList t.root.children

/-- A sequence of `tree_for_snapshot` calls (the only state mutation in
the adapter); calls that fail leave the state unchanged. -/
def applySids (fs : RuplicityFs) : List Nat → RuplicityFs
  | [] => fs
  | sid :: rest =>
    match fs.tree_for_snapshot sid with
    | some r => applySids r.2.2 rest
    | none => applySids fs rest

theorem new_root_ino (es : List SigEntry) (sino first_ino : Nat) :
    (SnapshotTree.new es sino first_ino).root.ino = first_ino := by
  cases es <;> rfl

/-- `lastHigh` only depends on its default for the empty list. -/
theorem lastHigh_eq_getLast (d : Nat) (cs : List TreeNode) :
    lastHigh d cs = match cs.getLast? with
      | some c => c.inodesHigh
      | none => d := by
  induction cs generalizing d with
  | nil => simp
  | cons c cs' ih =>
    rw [lastHigh_cons, ih c.inodesHigh]
    cases cs' with
    | nil => simp
    | cons c' cs'' =>
      cases h : (c' :: cs'').getLast? with
      | none =>
        have hs : (c' :: cs'').getLast?.isSome := List.getLast?_isSome.mpr (by simp)
        rw [h] at hs
        simp at hs
      | some x => simp [List.getLast?_cons_cons, h]

/-- The assigned inodes of a well-formed chain contain no duplicates. -/
theorem WfChain.nodup {n : Nat} {cs : List TreeNode} (h : WfChain n cs) :
    (subtreeInosList cs).Nodup := by
  induction h with
  | nil n => simp
  | cons index n ch cs h1 h2 ih1 ih2 =>
    simp only [subtreeInosList_cons, subtreeInos_mk]
    rw [List.nodup_append]
    have hnext : chainNext (n + 1) ch = lastHigh n ch + 1 := h1.chainNext_eq n rfl
    have hhigh : n ≤ lastHigh n ch := h1.le_lastHigh n (Nat.lt_succ_self n)
    refine ⟨?_, ih2, ?_⟩
    · rw [List.nodup_cons]
      refine ⟨?_, ih1⟩
      intro hmem
      have := (h1.mem_subtreeInosList n).mp hmem
      omega
    · intro a ha hb
      have hb' := (h2.mem_subtreeInosList a).mp hb
      rw [inodesHigh_mk] at hb'
      rcases List.mem_cons.mp ha with rfl | ha'
      · omega
      · have := (h1.mem_subtreeInosList a).mp ha'
        omega

/-- Characterisation of a nonempty tree interval: it starts one past the
root inode, is nonempty, and holds exactly the assigned inodes. -/
theorem SnapshotTree.inodes_eq_some {t : SnapshotTree} {lo hi : Nat}
    (hwf : t.root.wfIno) (h : t.inodes = some (lo, hi)) :
    lo = t.root.ino + 1 ∧ lo ≤ hi ∧
    (∀ m, m ∈ assignedInos t ↔ lo ≤ m ∧ m ≤ hi) := by
  cases hroot : t.root with
  | mk i n ch =>
    have hwf' : WfChain (n + 1) ch := by
      have := hwf
      rw [TreeNode.wfIno, hroot] at this
      simpa using this
    cases hch : ch with
    | nil =>
      rw [SnapshotTree.inodes, hroot, hch] at h
      exact Option.noConfusion h
    | cons c cs =>
      subst hch
      have hlast : (c :: cs).getLast?.isSome := List.getLast?_isSome.mpr (by simp)
      cases hL : (c :: cs).getLast? with
      | none => rw [hL] at hlast; simp at hlast
      | some x =>
        simp only [SnapshotTree.inodes, hroot, TreeNode.children_mk, List.head?_cons, hL,
          Option.some.injEq, Prod.mk.injEq] at h
        obtain ⟨hlo, hhi⟩ := h
        obtain ⟨hcino, hcwf, hrest⟩ := hwf'.head_ino
        have hlo' : lo = n + 1 := by
          rw [← hlo, TreeNode.inodes, hcino]
        have hlastHigh : lastHigh n (c :: cs) = x.inodesHigh := by
          rw [lastHigh_eq_getLast, hL]
        have hnext : chainNext (n + 1) (c :: cs) = lastHigh n (c :: cs) + 1 :=
          hwf'.chainNext_eq n rfl
        have hmem : ∀ m, m ∈ assignedInos t ↔ lo ≤ m ∧ m ≤ hi := by
          intro m
          have h1 := hwf'.mem_subtreeInosList m
          have h2 : assignedInos t = subtreeInosList (c :: cs) := by
            rw [assignedInos, hroot, TreeNode.children_mk]
          rw [h2, h1, hnext, hlastHigh]
          have hhi' : x.inodesHigh = hi := hhi
          rw [hhi', hlo']
          omega
        refine ⟨by simp [hlo', hroot], ?_, hmem⟩
        have hcmem : c.ino ∈ assignedInos t := by
          rw [assignedInos, hroot, TreeNode.children_mk, subtreeInosList_cons]
          refine List.mem_append_left _ ?_
          cases c with
          | mk ci cn cch => simp
        have := (hmem c.ino).mp hcmem
        omega

/-- A tree with no interval assigns no inodes. -/
theorem SnapshotTree.inodes_eq_none {t : SnapshotTree} (h : t.inodes = none) :
    assignedInos t = [] := by
  cases hch : t.root.children with
  | nil => rw [assignedInos, hch, subtreeInosList_nil]
  | cons c cs =>
    exfalso
    have hlast : (c :: cs).getLast?.isSome := List.getLast?_isSome.mpr (by simp)
    cases hL : (c :: cs).getLast? with
    | none => rw [hL] at hlast; simp at hlast
    | some x =>
      rw [SnapshotTree.inodes, hch, hL] at h
      simp at h

/-- Per-tree part of the registry invariant: a well-formed root and all
assigned inodes bounded by the registry's allocator watermark. -/
def TreeBounds (t : SnapshotTree) (bound : Nat) : Prop :=
  t.root.wfIno ∧ ∀ m ∈ assignedInos t, m ≤ bound

/-- The registry invariant: every materialised tree is within the
watermark, and distinct slots hold trees with disjoint assigned inodes. -/
def RegInv (fs : RuplicityFs) : Prop :=
  (∀ k t, fs.trees.get? k = some (some t) → TreeBounds t fs.last_ino) ∧
  (∀ k l t u, k ≠ l → fs.trees.get? k = some (some t) →
      fs.trees.get? l = some (some u) →
      List.Disjoint (assignedInos t) (assignedInos u))

theorem regInv_new (backup : List SnapshotData) : RegInv (RuplicityFs.new backup) := by
  constructor
  · intro k t h
    have hmem := List.get?_mem h
    have := List.eq_of_mem_replicate hmem
    cases this
  · intro k l t u hne hk hl
    have hmem := List.get?_mem hk
    have := List.eq_of_mem_replicate hmem
    cases this

/-- `tree_for_snapshot` preserves the registry invariant and never
decreases the watermark. -/
theorem tree_for_snapshot_regInv {fs : RuplicityFs} {sid : Nat} (hInv : RegInv fs)
    {r : SnapshotTree × SnapshotData × RuplicityFs}
    (h : fs.tree_for_snapshot sid = some r) :
    RegInv r.2.2 ∧ fs.last_ino ≤ r.2.2.last_ino := by
  unfold RuplicityFs.tree_for_snapshot at h
  cases htr : fs.trees.get? sid with
  | none => rw [htr] at h; exact Option.noConfusion h
  | some o =>
    rw [htr] at h
    cases o with
    | some t =>
      cases hsn : fs.snapshot_from_sid sid with
      | none => rw [hsn] at h; exact Option.noConfusion h
      | some snap =>
        rw [hsn] at h
        cases h
        exact ⟨hInv, le_refl _⟩
    | none =>
      cases hsn : fs.snapshot_from_sid sid with
      | none => rw [hsn] at h; exact Option.noConfusion h
      | some snap =>
        rw [hsn] at h
        cases h
        have hlen : sid < fs.trees.length := by
          by_contra hcon
          rw [List.get?_eq_none.mpr (by omega)] at htr
          exact Option.noConfusion htr
        have hwf : (SnapshotTree.new snap.entries (ino_from_sid sid)
            (fs.last_ino + 1)).root.wfIno := SnapshotTree.new_root_wf _ _ _
        have hrino : (SnapshotTree.new snap.entries (ino_from_sid sid)
            (fs.last_ino + 1)).root.ino = fs.last_ino + 1 := new_root_ino _ _ _
        -- abbreviations for the new tree and the new watermark
        generalize hT : SnapshotTree.new snap.entries (ino_from_sid sid)
            (fs.last_ino + 1) = T at hwf hrino
        have hbound : ∀ m ∈ assignedInos T,
            fs.last_ino + 2 ≤ m ∧
              m ≤ (match T.inodes with
                    | some p => p.2
                    | none => fs.last_ino) := by
          intro m hm
          cases hin : T.inodes with
          | none => rw [SnapshotTree.inodes_eq_none hin] at hm; cases hm
          | some p =>
            obtain ⟨lo, hi⟩ := p
            obtain ⟨hlo, hlohi, hmem⟩ := SnapshotTree.inodes_eq_some hwf hin
            have := (hmem m).mp hm
            rw [hlo, hrino] at this
            refine ⟨by omega, ?_⟩
            show m ≤ hi
            omega
        have hmono : fs.last_ino ≤ (match T.inodes with
            | some p => p.2
            | none => fs.last_ino) := by
          cases hin : T.inodes with
          | none => simp
          | some p =>
            obtain ⟨lo, hi⟩ := p
            obtain ⟨hlo, hlohi, hmem⟩ := SnapshotTree.inodes_eq_some hwf hin
            rw [hlo, hrino] at hlohi
            show fs.last_ino ≤ hi
            omega
        refine ⟨⟨?_, ?_⟩, hmono⟩
        · intro k u hk
          by_cases hks : k = sid
          · subst hks
            rw [List.get?_set_eq_of_lt (some T) hlen] at hk
            cases hk
            exact ⟨hwf, fun m hm => (hbound m hm).2⟩
          · rw [List.get?_set_ne (some T) fs.trees (fun hh => hks hh.symm)] at hk
            obtain ⟨hu_wf, hu_bd⟩ := hInv.1 k u hk
            exact ⟨hu_wf, fun m hm => le_trans (hu_bd m hm) hmono⟩
        · intro k l u v hne hk hl
          by_cases hks : k = sid <;> by_cases hls : l = sid
          · exact absurd (hks.trans hls.symm) hne
          · subst hks
            rw [List.get?_set_eq_of_lt (some T) hlen] at hk
            rw [List.get?_set_ne (some T) fs.trees (fun hh => hls hh.symm)] at hl
            cases hk
            intro m hmu hmv
            have h1 := (hbound m hmu).1
            have h2 := (hInv.1 l v hl).2 m hmv
            omega
          · subst hls
            rw [List.get?_set_eq_of_lt (some T) hlen] at hl
            rw [List.get?_set_ne (some T) fs.trees (fun hh => hks hh.symm)] at hk
            cases hl
            intro m hmu hmv
            have h1 := (hbound m hmv).1
            have h2 := (hInv.1 k u hk).2 m hmu
            omega
          · rw [List.get?_set_ne (some T) fs.trees (fun hh => hks hh.symm)] at hk
            rw [List.get?_set_ne (some T) fs.trees (fun hh => hls hh.symm)] at hl
            exact hInv.2 k l u v hne hk hl

/-- Any sequence of materialisations preserves the registry invariant. -/
theorem applySids_regInv {fs : RuplicityFs} (h : RegInv fs) (sids : List Nat) :
    RegInv (applySids fs sids) := by
  induction sids generalizing fs with
  | nil => exact h
  | cons sid rest ih =>
    simp only [applySids]
    cases hts : fs.tree_for_snapshot sid with
    | none => exact ih h
    | some r => exact ih (tree_for_snapshot_regInv h hts).1

theorem pairwise_disjoint_filterMap {l : List (Option SnapshotTree)}
    (h : ∀ k m t u, k ≠ m → l.get? k = some (some t) → l.get? m = some (some u) →
        List.Disjoint (assignedInos t) (assignedInos u)) :
    (l.filterMap id).Pairwise
      (fun a b => List.Disjoint (assignedInos a) (assignedInos b)) := by
  induction l with
  | nil => simp
  | cons o l' ih =>
    have hshift : ∀ k m t u, k ≠ m → l'.get? k = some (some t) →
        l'.get? m = some (some u) →
        List.Disjoint (assignedInos t) (assignedInos u) := by
      intro k m t u hne hk hm
      exact h (k + 1) (m + 1) t u (by omega) hk hm
    cases o with
    | none => simpa using ih hshift
    | some t =>
      rw [show (some t :: l').filterMap id = t :: l'.filterMap id by simp]
      refine List.Pairwise.cons ?_ (ih hshift)
      intro b hb
      obtain ⟨o', ho', hoeq⟩ := List.mem_filterMap.mp hb
      obtain ⟨m, hm⟩ := List.mem_iff_get?.mp ho'
      have hoeq' : o' = some b := hoeq
      have hmm : (some t :: l').get? (m + 1) = some (some b) := by
        rw [List.get?_cons_succ, hm, hoeq']
      exact h 0 (m + 1) t b (by omega) rfl hmm

/-- **C3**: starting from a fresh mount and performing any sequence of
tree materialisations (`tree_for_snapshot`), the inode intervals of two
distinct materialised trees are disjoint, and the concatenation of all
materialised trees' assigned inodes contains no duplicates. -/
theorem claim_C3 (backup : List SnapshotData) (sids : List Nat) :
    (∀ i j ti tj a1 b1 a2 b2, i ≠ j →
        (applySids (RuplicityFs.new backup) sids).trees.get? i = some (some ti) →
        (applySids (RuplicityFs.new backup) sids).trees.get? j = some (some tj) →
        ti.inodes = some (a1, b1) → tj.inodes = some (a2, b2) →
        b1 < a2 ∨ b2 < a1) ∧
    (((applySids (RuplicityFs.new backup) sids).trees.filterMap id).flatMap
        assignedInos).Nodup := by
  have hInv := applySids_regInv (regInv_new backup) sids
  constructor
  · intro i j ti tj a1 b1 a2 b2 hne hgi hgj hii hij
    have hwi := (hInv.1 i ti hgi).1
    have hwj := (hInv.1 j tj hgj).1
    obtain ⟨hloi, hlohii, hmemi⟩ := SnapshotTree.inodes_eq_some hwi hii
    obtain ⟨hloj, hlohij, hmemj⟩ := SnapshotTree.inodes_eq_some hwj hij
    have hdisj := hInv.2 i j ti tj hne hgi hgj
    by_contra hcon
    push_neg at hcon
    have hm1 : max a1 a2 ∈ assignedInos ti := (hmemi _).mpr (by omega)
    have hm2 : max a1 a2 ∈ assignedInos tj := (hmemj _).mpr (by omega)
    exact hdisj hm1 hm2
  · rw [List.nodup_flatMap]
    constructor
    · intro t ht
      obtain ⟨o, ho, hoeq⟩ := List.mem_filterMap.mp ht
      obtain ⟨k, hk⟩ := List.mem_iff_get?.mp ho
      have hoeq' : o = some t := hoeq
      have hk' : (applySids (RuplicityFs.new backup) sids).trees.get? k =
          some (some t) := by
        rw [hk, hoeq']
      exact WfChain.nodup (hInv.1 k t hk').1
    · exact pairwise_disjoint_filterMap (fun k m t u hne hk hm =>
        hInv.2 k m t u hne hk hm)

/-- A concrete backup with two snapshots, used as the C3 witness input. -/
def c3Backup : List SnapshotData :=
  [⟨"snap0", 0, [plainRecord [], plainRecord [.normal "a"]]⟩,
   ⟨"snap1", 1,
    [plainRecord [], plainRecord [.normal "b"],
     plainRecord [.normal "b", .normal "c"]]⟩]

/-- Witness for C3: materialising both trees of `c3Backup` yields the
trees with intervals `[6, 6]` and `[8, 9]`, which are disjoint. -/
theorem claim_C3_witness :
    (0 : Nat) ≠ 1 ∧
    (applySids (RuplicityFs.new c3Backup) [0, 1]).trees.get? 0 =
      some (some ⟨2, .mk 0 5 [.mk 1 6 []]⟩) ∧
    (applySids (RuplicityFs.new c3Backup) [0, 1]).trees.get? 1 =
      some (some ⟨3, .mk 0 7 [.mk 1 8 [.mk 2 9 []]]⟩) ∧
    (SnapshotTree.mk 2 (.mk 0 5 [.mk 1 6 []])).inodes = some (6, 6) ∧
    (SnapshotTree.mk 3 (.mk 0 7 [.mk 1 8 [.mk 2 9 []]])).inodes = some (8, 9) ∧
    ((6 : Nat) < 8 ∨ (9 : Nat) < 6) :=
  ⟨by decide, rfl, rfl, rfl, rfl,
   (claim_C3 c3Backup [0, 1]).1 0 1 ⟨2, .mk 0 5 [.mk 1 6 []]⟩
     ⟨3, .mk 0 7 [.mk 1 8 [.mk 2 9 []]]⟩ 6 6 8 9 (by decide) rfl rfl rfl rfl⟩

/-! ## VFS replies and the remaining operations (src/fs/mod.rs) -/

/-- The errno values the adapter replies with. -/
inductive Errno : Type where
  | eNOENT
  | eNOSYS
deriving DecidableEq, Repr

/-- Outcome of an operation: a committed reply, an errno reply, a
logged io failure with no reply (`try_or_log!`), or a panic. -/
inductive FsReply (α : Type) : Type where
  | ok (a : α)
  | error (e : Errno)
  | noreply
  | panic
deriving DecidableEq, Repr

/-- `getattr_snapshot` (src/fs/mod.rs 73-77). -/
def RuplicityFs.getattr_snapshot (fs : RuplicityFs) (ino : Nat) : FsReply FileAttr :=
  match fs.snapshot_from_sid (sid_from_ino ino) with
  | none => .noreply
  | some snap => .ok (attr_snapshot snap.time ino)

/-- Modelled from the spec: `NodeEntry::as_path_entry` — "fetches the
backing signature entry by re-opening the snapshot's entry stream and
advancing to the recorded index" (spec §2, §4.4, §9); the method is code
of this repository missing from src/ (only its callers in
src/fs/mod.rs are present).  `none` is the out-of-range panic. -/
def NodeEntry.as_path_entry (e : NodeEntry) (entries : List SigEntry) : Option SigEntry :=
  entries.get? e.node.index

/-- `getattr_entry` (src/fs/mod.rs 80-96). -/
def RuplicityFs.getattr_entry (fs : RuplicityFs) (ino : Nat) : FsReply FileAttr :=
  match fs.find_tree_with_ino ino with
  | none => .error .eNOENT
  | some (tree, sid) =>
    match tree.find_node ino with
    | none => .error .eNOENT
    | some entry =>
      match fs.snapshot_from_sid sid with
      | none => .noreply
      | some snap =>
        match entry.as_path_entry snap.entries with
        | none => .panic
        | some record => .ok (attr_entry record ino)

/-- `Filesystem::getattr` (src/fs/mod.rs 364-373); `now` is the wall
time used for the root attributes. -/
def RuplicityFs.getattr (fs : RuplicityFs) (ino : Nat) (now : Int) : FsReply FileAttr :=
  if ino = 1 then .ok (attr_root now)
  else if fs.snapshots.is_snapshot ino then fs.getattr_snapshot ino
  else fs.getattr_entry ino

/-- `path2bytes`, unix version (src/path_utils.rs 16-19): always the
native byte sequence. -/
def path2bytes (p : PathB) : Option (List Nat) := some p.bytes

/-- `path2bytes`, windows version (src/path_utils.rs 8-14): the path's
UTF-8 encoding, an error when the path is not valid unicode.  For a path
whose encoding is valid the UTF-8 bytes coincide with the byte sequence
carried by `PathB`. -/
def path2bytes_win (p : PathB) : Option (List Nat) :=
  p.utf8.map (fun _ => p.bytes)

/-- `readlink_entry` (src/fs/mod.rs 238-260), parameterised by the
platform's `path2bytes`. -/
def RuplicityFs.readlink_entry (p2b : PathB → Option (List Nat))
    (fs : RuplicityFs) (ino : Nat) : FsReply (List Nat) :=
  match fs.find_tree_with_ino ino with
  | none => .error .eNOENT
  | some (tree, sid) =>
    match tree.find_node ino with
    | none => .error .eNOENT
    | some entry =>
      match fs.snapshot_from_sid sid with
      | none => .noreply
      | some snap =>
        match entry.as_path_entry snap.entries with
        | none => .panic
        | some record =>
          match record.linked_path with
          | some path => .ok ((p2b path).getD [])
          | none => .error .eNOSYS

/-! ## Children iteration (src/fs/tree.rs 192-241) -/

/-- A tree node paired with its signature record and the iteration depth
(src/fs/tree.rs 26-30). -/
structure PathEntryM : Type where
  node : TreeNode
  entry : SigEntry
  depth : Nat

/-- `ChildrenIter::next` (src/fs/tree.rs 192-206), materialised: for each
child, advance the stream by `child.index - curr_index - 1` and take the
next record (`nth(skip)`); `none` models the `unwrap` panic when the
stream is too short.  The source iterator is lazy; eager materialisation
only differs on panicking runs. -/
def childrenIterGo (depth : Nat) :
    List TreeNode → List SigEntry → Nat → Option (List PathEntryM)
  | [], _, _ => some []
  | c :: rest, ents, curr =>
    let skip := c.index - curr - 1
    match ents.get? skip with
    | none => none
    | some e =>
      (childrenIterGo depth rest (ents.drop (skip + 1)) (curr + skip + 1)).map
        (fun l => ⟨c, e, depth⟩ :: l)

/-- `SnapshotTree::children` (src/fs/tree.rs 76-85): skip the root record
(`unwrap` panics on an empty stream), then iterate the root's children at
path depth 0. -/
def SnapshotTree.childrenM (t : SnapshotTree) (entries : List SigEntry) :
    Option (List PathEntryM) :=
  match entries with
  | [] => none
  | _ :: rest => childrenIterGo 0 t.root.children rest 0

/-- `NodeEntry::children` (src/fs/tree.rs 232-241): same, one level down
at the node's depth. -/
def NodeEntry.childrenM (e : NodeEntry) (entries : List SigEntry) :
    Option (List PathEntryM) :=
  match entries with
  | [] => none
  | _ :: rest => childrenIterGo e.depth e.node.children rest 0

/-- `PathEntry::path` (src/fs/tree.rs 214-219): the component of the
record's path at the iteration depth; the outer `none` models the
`unwrap` panic when the path is shorter, the inner `none` a component
that is not a plain name. -/
def PathEntryM.path (pe : PathEntryM) : Option (Option String) :=
  (pe.entry.path.get? pe.depth).map (fun c =>
    match c with
    | .normal s => some s
    | _ => none)

/-- `PathEntry::ino` (src/fs/tree.rs 221-223). -/
def PathEntryM.ino (pe : PathEntryM) : Nat := pe.node.ino

/-- `lookup_entry` (src/fs/mod.rs 208-235): find the first child whose
single-component name equals `name` (`Path` equality on a plain-name
component is equality of the UTF-8 text). -/
def RuplicityFs.lookup_entry (fs : RuplicityFs) (parent : Nat) (name : PathB) :
    FsReply FileAttr :=
  match fs.find_tree_with_ino parent with
  | none => .error .eNOENT
  | some (tree, sid) =>
    match tree.find_node parent with
    | none => .error .eNOENT
    | some parent_entry =>
      match fs.snapshot_from_sid sid with
      | none => .noreply
      | some snap =>
        match parent_entry.childrenM snap.entries with
        | none => .panic
        | some children =>
          match children.find? (fun pe =>
            match pe.path with
            | some (some s) => name.utf8 == some s
            | _ => false) with
          | some pe => .ok (attr_entry pe.entry pe.ino)
          | none => .error .eNOENT

/-- `lookup_snapshot` (src/fs/mod.rs 196-205); the `Except.error` is the
`to_str().unwrap()` panic inside `sid_from_path` on a non-UTF-8 name. -/
def RuplicityFs.lookup_snapshot (fs : RuplicityFs) (name : PathB) :
    Except Unit (FsReply FileAttr) :=
  match fs.snapshots.sid_from_path name with
  | .error e => .error e
  | .ok none => .ok (.error .eNOENT)
  | .ok (some sid) =>
    match fs.snapshot_from_sid sid with
    | none => .ok .noreply
    | some snap => .ok (.ok (attr_snapshot snap.time (ino_from_sid sid)))

/-- `Filesystem::lookup` (src/fs/mod.rs 385-391). -/
def RuplicityFs.lookup (fs : RuplicityFs) (parent : Nat) (name : PathB) :
    Except Unit (FsReply FileAttr) :=
  if parent = 1 then fs.lookup_snapshot name
  else .ok (fs.lookup_entry parent name)

/-! ## readdir (src/fs/mod.rs 99-193, 375-383) -/

/-- One directory entry as handed to `ReplyDirectory::add`. -/
structure DirItem : Type where
  ino : Nat
  offset : Nat
  kind : FileType
  name : String
deriving DecidableEq, Repr

/-- The reply buffer: `add` appends while there is room and reports
fullness (a full buffer rejects the entry).  `cap` counts entries,
abstracting the kernel's byte budget. -/
structure ReplyBuf : Type where
  cap : Nat
  items : List DirItem
deriving DecidableEq, Repr

def ReplyBuf.add (b : ReplyBuf) (it : DirItem) : ReplyBuf × Bool :=
  if b.items.length < b.cap then ({ b with items := b.items ++ [it] }, false)
  else (b, true)

/-- The snapshot loop of `readdir_root` (src/fs/mod.rs 109-118):
`offset` is the cookie of the last processed entry; each snapshot is
emitted at `offset + 1` (cookie = ino for snapshots). -/
def rootLoop : List SnapshotData → Nat → ReplyBuf → ReplyBuf
  | [], _, buf => buf
  | s :: rest, offset, buf =>
    let r := buf.add ⟨offset + 1, offset + 1, .directory, s.pathName⟩
    if r.2 then r.1 else rootLoop rest (offset + 1) r.1

/-- `readdir_root` (src/fs/mod.rs 99-120). -/
def RuplicityFs.readdir_root (fs : RuplicityFs) (offset cap : Nat) : List DirItem :=
  let buf0 : ReplyBuf :=
    if offset = 0 then
      (((ReplyBuf.mk cap []).add ⟨1, 0, .directory, "."⟩).1.add
        ⟨1, 1, .directory, ".."⟩).1
    else ReplyBuf.mk cap []
  let offset' := if offset = 0 then 1 else offset
  (rootLoop (fs.backup.drop (offset' - 1)) offset' buf0).items

/-- The child loop shared by `readdir_snapshot` and `readdir_entry`
(src/fs/mod.rs 135-149 and 177-191): `j` is the enumeration index of the
head (the `.enumerate().skip(offset-1)` of the source is `drop` plus this
counter); entries whose `path()` is not a plain name are skipped without
emitting (`unwrap_opt_or_continue!`); `none` is the `path()` panic. -/
def childLoop : Nat → List PathEntryM → ReplyBuf → Option ReplyBuf
  | _, [], buf => some buf
  | j, pe :: rest, buf =>
    match pe.path with
    | none => none
    | some none => childLoop (j + 1) rest buf
    | some (some s) =>
      let r := buf.add ⟨pe.ino, j + 2, from_entry_type pe.entry.entry_type, s⟩
      if r.2 then some r.1 else childLoop (j + 1) rest r.1

/-- `readdir_snapshot` (src/fs/mod.rs 123-151).  The returned state
carries the possibly just-materialised tree. -/
def RuplicityFs.readdir_snapshot (fs : RuplicityFs) (ino offset cap : Nat) :
    FsReply (List DirItem) × RuplicityFs :=
  let buf0 : ReplyBuf :=
    if offset = 0 then
      (((ReplyBuf.mk cap []).add ⟨ino, 0, .directory, "."⟩).1.add
        ⟨1, 1, .directory, ".."⟩).1
    else ReplyBuf.mk cap []
  let offset' := if offset = 0 then 1 else offset
  match fs.tree_for_snapshot (sid_from_ino ino) with
  | none => (.noreply, fs)
  | some (tree, snap, fs') =>
    match tree.childrenM snap.entries with
    | none => (.panic, fs')
    | some children =>
      match childLoop (offset' - 1) (children.drop (offset' - 1)) buf0 with
      | none => (.panic, fs')
      | some buf => (.ok buf.items, fs')

/-- Modelled from the spec: `NodeEntry::parent` — "`..` carries the
parent node's inode (obtained via `find_node`)" (spec §4.7); the method
is code of this repository missing from src/ (only the caller
`readdir_entry` is present).  The same descent as `find_node`, returning
the inode of the node one level up (the tree root's own inode for
top-level nodes). -/
def findParentIno (ino : Nat) : Nat → TreeNode → Nat → Option Nat
  | 0, _, _ => none
  | f + 1, node, parent =>
    if node.ino = ino then some parent
    else if ino < node.inodes.1 ∨ node.inodes.2 < ino then none
    else
      match binarySearchChildren node.children ino with
      | some idx =>
        match node.children.get? idx with
        | some c => findParentIno ino f c node.ino
        | none => none
      | none => none

def SnapshotTree.parentIno (t : SnapshotTree) (ino : Nat) : Nat :=
  (findParentIno ino t.root.allNodes.length t.root t.root.ino).getD t.root.ino

/-- `readdir_entry` (src/fs/mod.rs 154-193). -/
def RuplicityFs.readdir_entry (fs : RuplicityFs) (ino offset cap : Nat) :
    FsReply (List DirItem) :=
  match fs.find_tree_with_ino ino with
  | none => .error .eNOENT
  | some (tree, sid) =>
    match tree.find_node ino with
    | none => .error .eNOENT
    | some parent_entry =>
      let buf0 : ReplyBuf :=
        if offset = 0 then
          (((ReplyBuf.mk cap []).add ⟨ino, 0, .directory, "."⟩).1.add
            ⟨tree.parentIno ino, 1, .directory, ".."⟩).1
        else ReplyBuf.mk cap []
      let offset' := if offset = 0 then 1 else offset
      match fs.snapshot_from_sid sid with
      | none => .noreply
      | some snap =>
        match parent_entry.childrenM snap.entries with
        | none => .panic
        | some children =>
          match childLoop (offset' - 1) (children.drop (offset' - 1)) buf0 with
          | none => .panic
          | some buf => .ok buf.items

/-- `Filesystem::readdir` (src/fs/mod.rs 375-383). -/
def RuplicityFs.readdir (fs : RuplicityFs) (ino offset cap : Nat) :
    FsReply (List DirItem) × RuplicityFs :=
  if ino = 1 then (.ok (fs.readdir_root offset cap), fs)
  else if fs.snapshots.is_snapshot ino then fs.readdir_snapshot ino offset cap
  else (fs.readdir_entry ino offset cap, fs)

/-- The kernel's readdir walk: re-issue with the last returned cookie
until a page comes back empty (or an error stops the stream). -/
def drivePages : Nat → RuplicityFs → Nat → Nat → Nat → List DirItem
  | 0, _, _, _, _ => []
  | fuel + 1, fs, ino, cap, c =>
    match fs.readdir ino c cap with
    | (.ok items, fs') =>
      match items.getLast? with
      | none => []
      | some last => items ++ drivePages fuel fs' ino cap last.offset
    | _ => []

/-! ## Claims C6, C9, C10 -/

/-- **C6** (counterexample): on a fresh mount of a two-snapshot backup,
`getattr(0)` — inode 0 is neither the root, nor a snapshot, nor inside
any tree — replies `ENOENT`, not `ENOSYS` as the claim states: the
dispatch routes every non-root, non-snapshot inode to `getattr_entry`,
whose failed tree lookup replies `ENOENT` (src/fs/mod.rs 81-85). -/
theorem claim_C6_counterexample :
    (RuplicityFs.new c3Backup).getattr 0 0 = .error .eNOENT ∧
    (FsReply.error Errno.eNOENT : FsReply FileAttr) ≠ .error .eNOSYS := by
  exact ⟨rfl, by decide⟩

/-- **C6** (amended): for every inode that is not the root, not a
snapshot and not covered by any materialised tree (in particular inode 0
and every inode above all assigned ones), `getattr` fails with `ENOENT`. -/
theorem claim_C6 (fs : RuplicityFs) (now : Int) (ino : Nat)
    (h1 : ino ≠ 1) (h2 : ¬ fs.snapshots.is_snapshot ino)
    (h3 : fs.find_tree_with_ino ino = none) :
    fs.getattr ino now = .error .eNOENT := by
  rw [RuplicityFs.getattr, if_neg h1, if_neg h2, RuplicityFs.getattr_entry, h3]

/-- Witness for C6 at inode 0 on a fresh mount. -/
theorem claim_C6_witness :
    (0 : Nat) ≠ 1 ∧
    ¬ (RuplicityFs.new c3Backup).snapshots.is_snapshot 0 ∧
    (RuplicityFs.new c3Backup).find_tree_with_ino 0 = none ∧
    (RuplicityFs.new c3Backup).getattr 0 0 = .error .eNOENT :=
  ⟨by decide, by decide, rfl,
   claim_C6 (RuplicityFs.new c3Backup) 0 0 (by decide) (by decide) rfl⟩

/-- **C9**: for every inode that resolves to an entry, `readlink`
returns exactly the raw bytes of the record's `linked_path` — and, on
the windows conversion, an empty byte slice when the path's encoding is
invalid — and fails with `ENOSYS` when the record has no `linked_path`
(a non-symlink). -/
theorem claim_C9 (fs : RuplicityFs) (ino : Nat) (tree : SnapshotTree) (sid : Nat)
    (entry : NodeEntry) (snap : SnapshotData) (record : SigEntry)
    (h1 : fs.find_tree_with_ino ino = some (tree, sid))
    (h2 : tree.find_node ino = some entry)
    (h3 : fs.snapshot_from_sid sid = some snap)
    (h4 : entry.as_path_entry snap.entries = some record) :
    (∀ p, record.linked_path = some p →
        RuplicityFs.readlink_entry path2bytes fs ino = .ok p.bytes ∧
        (p.utf8 ≠ none →
          RuplicityFs.readlink_entry path2bytes_win fs ino = .ok p.bytes) ∧
        (p.utf8 = none →
          RuplicityFs.readlink_entry path2bytes_win fs ino = .ok [])) ∧
    (record.linked_path = none →
        RuplicityFs.readlink_entry path2bytes fs ino = .error .eNOSYS ∧
        RuplicityFs.readlink_entry path2bytes_win fs ino = .error .eNOSYS) := by
  constructor
  · intro p hp
    refine ⟨?_, ?_, ?_⟩
    · simp only [RuplicityFs.readlink_entry, h1, h2, h3, h4, hp]
      rfl
    · intro hu
      simp only [RuplicityFs.readlink_entry, h1, h2, h3, h4, hp]
      cases hu' : p.utf8 with
      | none => exact absurd hu' hu
      | some s => simp [path2bytes_win, hu']
    · intro hu
      simp only [RuplicityFs.readlink_entry, h1, h2, h3, h4, hp]
      simp [path2bytes_win, hu]
  · intro hp
    constructor <;> simp only [RuplicityFs.readlink_entry, h1, h2, h3, h4, hp]

/-- The single-snapshot backup with a symlink, the C9 witness input. -/
def c9Backup : List SnapshotData :=
  [⟨"s", 0,
    [plainRecord [],
     { path := [.normal "l"], entry_type := .symLink, mode := none,
       userid := none, groupid := none, mtime := 0, size_hint := none,
       linked_path := some ⟨[47, 101], some "/e"⟩ }]⟩]

/-- Witness for C9: the symlink at inode 5 of `c9Backup`'s materialised
tree readlinks to its raw bytes `[47, 101]` (`"/e"`). -/
theorem claim_C9_witness :
    (applySids (RuplicityFs.new c9Backup) [0]).find_tree_with_ino 5 =
      some (⟨2, .mk 0 4 [.mk 1 5 []]⟩, 0) ∧
    (SnapshotTree.mk 2 (.mk 0 4 [.mk 1 5 []])).find_node 5 =
      some ⟨.mk 1 5 [], 1⟩ ∧
    RuplicityFs.readlink_entry path2bytes
      (applySids (RuplicityFs.new c9Backup) [0]) 5 = .ok [47, 101] :=
  ⟨rfl, rfl,
   ((claim_C9 (applySids (RuplicityFs.new c9Backup) [0]) 5
       ⟨2, .mk 0 4 [.mk 1 5 []]⟩ 0 ⟨.mk 1 5 [], 1⟩
       ⟨"s", 0,
        [plainRecord [],
         { path := [.normal "l"], entry_type := .symLink, mode := none,
           userid := none, groupid := none, mtime := 0, size_hint := none,
           linked_path := some ⟨[47, 101], some "/e"⟩ }]⟩
       { path := [.normal "l"], entry_type := .symLink, mode := none,
         userid := none, groupid := none, mtime := 0, size_hint := none,
         linked_path := some ⟨[47, 101], some "/e"⟩ }
       rfl rfl rfl rfl).1 ⟨[47, 101], some "/e"⟩ rfl).1⟩

/-- **C10**: `lookup` under the root parent panics exactly when the name
is not valid UTF-8 (`sid_from_path` calls `to_str().unwrap()`), and
always replies (no panic) when the name is valid UTF-8. -/
theorem claim_C10 (fs : RuplicityFs) (name : PathB) :
    (name.utf8 = none → fs.lookup 1 name = .error ()) ∧
    (∀ s, name.utf8 = some s → ∃ r, fs.lookup 1 name = .ok r) := by
  constructor
  · intro h
    rw [RuplicityFs.lookup, if_pos rfl, RuplicityFs.lookup_snapshot,
      SnapshotsInos.sid_from_path, h]
  · intro s h
    simp only [RuplicityFs.lookup, if_pos rfl, RuplicityFs.lookup_snapshot,
      SnapshotsInos.sid_from_path, h]
    cases hf : (fs.snapshots.paths.reverse.find? (fun p => p.1 == s)).map Prod.snd with
    | none => exact ⟨_, rfl⟩
    | some sid =>
      cases hs : fs.snapshot_from_sid sid with
      | none => exact ⟨.noreply, by simp [hs]⟩
      | some snap =>
        exact ⟨.ok (attr_snapshot snap.time (ino_from_sid sid)), by simp [hs]⟩

/-- Witness for C10: a non-UTF-8 name under the root panics; a valid
name replies. -/
theorem claim_C10_witness :
    (PathB.mk [255] none).utf8 = none ∧
    (RuplicityFs.new c3Backup).lookup 1 ⟨[255], none⟩ = .error () :=
  ⟨rfl, (claim_C10 (RuplicityFs.new c3Backup) ⟨[255], none⟩).1 rfl⟩

/-! ## readdir page characterisation (claim C4) -/

/-- The items the child loop emits with unlimited room, indexing from `j`. -/
def emitList : Nat → List PathEntryM → List DirItem
  | _, [] => []
  | j, pe :: rest =>
    match pe.path with
    | some (some s) =>
      ⟨pe.ino, j + 2, from_entry_type pe.entry.entry_type, s⟩ :: emitList (j + 1) rest
    | _ => emitList (j + 1) rest

/-- No element of the iteration panics in `path()`. -/
def NoPanic (lst : List PathEntryM) : Prop := ∀ pe ∈ lst, pe.path ≠ none

theorem noPanic_drop {lst : List PathEntryM} (h : NoPanic lst) (k : Nat) :
    NoPanic (lst.drop k) :=
  fun pe hpe => h pe (List.mem_of_mem_drop hpe)

theorem childLoop_cons_name (j : Nat) (pe : PathEntryM) (rest : List PathEntryM)
    (cap : Nat) (items : List DirItem) (s : String) (hp : pe.path = some (some s)) :
    childLoop j (pe :: rest) ⟨cap, items⟩ =
      if items.length < cap
      then childLoop (j + 1) rest
        ⟨cap, items ++ [⟨pe.ino, j + 2, from_entry_type pe.entry.entry_type, s⟩]⟩
      else some ⟨cap, items⟩ := by
  simp only [childLoop, hp, ReplyBuf.add]
  by_cases hlen : items.length < cap
  · simp [hlen]
  · simp [hlen]

theorem childLoop_cons_skip (j : Nat) (pe : PathEntryM) (rest : List PathEntryM)
    (buf : ReplyBuf) (hp : pe.path = some none) :
    childLoop j (pe :: rest) buf = childLoop (j + 1) rest buf := by
  simp only [childLoop, hp]

theorem emitList_cons_name (j : Nat) (pe : PathEntryM) (rest : List PathEntryM)
    (s : String) (hp : pe.path = some (some s)) :
    emitList j (pe :: rest) =
      ⟨pe.ino, j + 2, from_entry_type pe.entry.entry_type, s⟩ :: emitList (j + 1) rest := by
  simp only [emitList, hp]

theorem emitList_cons_skip (j : Nat) (pe : PathEntryM) (rest : List PathEntryM)
    (hp : pe.path = some none ∨ pe.path = none) :
    emitList j (pe :: rest) = emitList (j + 1) rest := by
  rcases hp with hp | hp <;> simp only [emitList, hp]

/-- The child loop fills the buffer with a prefix of the emitted items. -/
theorem childLoop_eq (lst : List PathEntryM) :
    ∀ j cap items, NoPanic lst →
      childLoop j lst ⟨cap, items⟩ =
        some ⟨cap, items ++ (emitList j lst).take (cap - items.length)⟩ := by
  induction lst with
  | nil => intro j cap items h; simp [childLoop, emitList]
  | cons pe rest ih =>
    intro j cap items h
    have hpe : pe.path ≠ none := h pe (List.mem_cons_self pe rest)
    have hrest : NoPanic rest := fun q hq => h q (List.mem_cons_of_mem pe hq)
    cases hp : pe.path with
    | none => exact absurd hp hpe
    | some o =>
      cases o with
      | none =>
        rw [childLoop_cons_skip j pe rest _ hp, emitList_cons_skip j pe rest (Or.inl hp)]
        exact ih (j + 1) cap items hrest
      | some s =>
        rw [childLoop_cons_name j pe rest cap items s hp, emitList_cons_name j pe rest s hp]
        by_cases hlen : items.length < cap
        · rw [if_pos hlen]
          have hit := ih (j + 1) cap
            (items ++ [(⟨pe.ino, j + 2, from_entry_type pe.entry.entry_type, s⟩ : DirItem)])
            hrest
          rw [hit]
          have harith : cap - items.length = (cap - (items.length + 1)) + 1 := by omega
          rw [harith, List.take_succ_cons]
          simp
        · rw [if_neg hlen]
          have h0 : cap - items.length = 0 := by omega
          rw [h0, List.take_zero, List.append_nil]

/-- A successful child loop extends the buffer. -/
theorem childLoop_prefix {lst : List PathEntryM} :
    ∀ {j : Nat} {cap : Nat} {items : List DirItem} {buf' : ReplyBuf},
      childLoop j lst ⟨cap, items⟩ = some buf' →
      ∃ s, buf'.items = items ++ s ∧ buf'.cap = cap := by
  induction lst with
  | nil =>
    intro j cap items buf' h
    cases h
    exact ⟨[], by simp⟩
  | cons pe rest ih =>
    intro j cap items buf' h
    cases hp : pe.path with
    | none =>
      simp only [childLoop, hp] at h
      exact Option.noConfusion h
    | some o =>
      cases o with
      | none =>
        rw [childLoop_cons_skip j pe rest _ hp] at h
        exact ih h
      | some s =>
        rw [childLoop_cons_name j pe rest cap items s hp] at h
        by_cases hlen : items.length < cap
        · rw [if_pos hlen] at h
          obtain ⟨tail, ht, hc⟩ := ih h
          refine ⟨(⟨pe.ino, j + 2, from_entry_type pe.entry.entry_type, s⟩ : DirItem) :: tail,
            ?_, hc⟩
          rw [ht]
          simp
        · rw [if_neg hlen] at h
          cases h
          exact ⟨[], by simp⟩

/-- A successful child loop that did not fill the buffer traversed the
whole list: no panic was possible and every item was emitted. -/
theorem childLoop_success_inv {lst : List PathEntryM} :
    ∀ {j : Nat} {cap : Nat} {items : List DirItem} {buf' : ReplyBuf},
      childLoop j lst ⟨cap, items⟩ = some buf' →
      buf'.items.length < cap →
      NoPanic lst ∧ buf' = ⟨cap, items ++ emitList j lst⟩ := by
  induction lst with
  | nil =>
    intro j cap items buf' h hlt
    cases h
    exact ⟨fun pe hpe => absurd hpe (List.not_mem_nil pe), by simp [emitList]⟩
  | cons pe rest ih =>
    intro j cap items buf' h hlt
    cases hp : pe.path with
    | none =>
      simp only [childLoop, hp] at h
      exact Option.noConfusion h
    | some o =>
      cases o with
      | none =>
        rw [childLoop_cons_skip j pe rest _ hp] at h
        obtain ⟨hnp, hbuf⟩ := ih h hlt
        refine ⟨?_, by rw [emitList_cons_skip j pe rest (Or.inl hp)]; exact hbuf⟩
        intro q hq
        rcases List.mem_cons.mp hq with rfl | hq'
        · rw [hp]; exact Option.noConfusion
        · exact hnp q hq'
      | some s =>
        rw [childLoop_cons_name j pe rest cap items s hp] at h
        by_cases hlen : items.length < cap
        · rw [if_pos hlen] at h
          obtain ⟨hnp, hbuf⟩ := ih h hlt
          constructor
          · intro q hq
            rcases List.mem_cons.mp hq with rfl | hq'
            · rw [hp]; exact Option.noConfusion
            · exact hnp q hq'
          · rw [hbuf, emitList_cons_name j pe rest s hp]
            simp
        · rw [if_neg hlen] at h
          cases h
          simp at hlt
          omega

theorem emitList_append (l1 l2 : List PathEntryM) :
    ∀ j, emitList j (l1 ++ l2) = emitList j l1 ++ emitList (j + l1.length) l2 := by
  induction l1 with
  | nil => intro j; simp [emitList]
  | cons pe rest ih =>
    intro j
    cases hp : pe.path with
    | none =>
      simp only [List.cons_append, emitList_cons_skip _ pe _ (Or.inr hp),
        emitList_cons_skip j pe rest (Or.inr hp), ih (j + 1), List.length_cons]
      have : j + 1 + rest.length = j + (rest.length + 1) := by omega
      rw [this]
    | some o =>
      cases o with
      | none =>
        simp only [List.cons_append, emitList_cons_skip _ pe _ (Or.inl hp),
          emitList_cons_skip j pe rest (Or.inl hp), ih (j + 1), List.length_cons]
        have : j + 1 + rest.length = j + (rest.length + 1) := by omega
        rw [this]
      | some s =>
        simp only [List.cons_append, emitList_cons_name _ pe _ s hp,
          emitList_cons_name j pe rest s hp, ih (j + 1), List.length_cons, List.cons_append]
        have : j + 1 + rest.length = j + (rest.length + 1) := by omega
        rw [this]

theorem emitList_split (l : List PathEntryM) (j k : Nat) (hk : k ≤ l.length) :
    emitList j l = emitList j (l.take k) ++ emitList (j + k) (l.drop k) := by
  conv_lhs => rw [← List.take_append_drop k l]
  rw [emitList_append (l.take k) (l.drop k) j, List.length_take, Nat.min_eq_left hk]

theorem emitList_offset_lb (l : List PathEntryM) :
    ∀ j it, it ∈ emitList j l → j + 2 ≤ it.offset := by
  induction l with
  | nil => intro j it h; simp [emitList] at h
  | cons pe rest ih =>
    intro j it h
    cases hp : pe.path with
    | none =>
      rw [emitList_cons_skip j pe rest (Or.inr hp)] at h
      have := ih (j + 1) it h
      omega
    | some o =>
      cases o with
      | none =>
        rw [emitList_cons_skip j pe rest (Or.inl hp)] at h
        have := ih (j + 1) it h
        omega
      | some s =>
        rw [emitList_cons_name j pe rest s hp] at h
        rcases List.mem_cons.mp h with rfl | h'
        · simp
        · have := ih (j + 1) it h'
          omega

theorem emitList_offset_ub (l : List PathEntryM) :
    ∀ j it, it ∈ emitList j l → it.offset ≤ j + l.length + 1 := by
  induction l with
  | nil => intro j it h; simp [emitList] at h
  | cons pe rest ih =>
    intro j it h
    cases hp : pe.path with
    | none =>
      rw [emitList_cons_skip j pe rest (Or.inr hp)] at h
      have := ih (j + 1) it h
      simp only [List.length_cons]
      omega
    | some o =>
      cases o with
      | none =>
        rw [emitList_cons_skip j pe rest (Or.inl hp)] at h
        have := ih (j + 1) it h
        simp only [List.length_cons]
        omega
      | some s =>
        rw [emitList_cons_name j pe rest s hp] at h
        simp only [List.length_cons]
        rcases List.mem_cons.mp h with rfl | h'
        · simp
        · have := ih (j + 1) it h'
          omega

/-- The suffix of the emitted items after cookie `j + k + 1` is exactly
the emission of the child suffix from position `k`. -/
theorem emitList_filter_suffix (l : List PathEntryM) (j k : Nat) (hk : k ≤ l.length) :
    (emitList j l).filter (fun it => j + k + 1 < it.offset) =
      emitList (j + k) (l.drop k) := by
  rw [emitList_split l j k hk, List.filter_append]
  have h1 : (emitList j (l.take k)).filter (fun it => j + k + 1 < it.offset) = [] := by
    rw [List.filter_eq_nil_iff]
    intro it hit
    have := emitList_offset_ub (l.take k) j it hit
    rw [List.length_take, Nat.min_eq_left hk] at this
    simp only [decide_eq_true_eq]
    omega
  have h2 : (emitList (j + k) (l.drop k)).filter (fun it => j + k + 1 < it.offset) =
      emitList (j + k) (l.drop k) := by
    rw [List.filter_eq_self]
    intro it hit
    have := emitList_offset_lb (l.drop k) (j + k) it hit
    simp only [decide_eq_true_eq]
    omega
  rw [h1, h2, List.nil_append]

/-- Splitting a capacity-limited page at its last emitted item: the page
equals the emission of a child prefix, its last cookie points one past
that prefix, and the rest of the emission is the emission of the
remaining children. -/
theorem emit_take_last (l : List PathEntryM) :
    ∀ j cap it, ((emitList j l).take cap).getLast? = some it →
      ∃ m, 1 ≤ m ∧ m ≤ l.length ∧
        (emitList j l).take cap = emitList j (l.take m) ∧
        it.offset = j + m + 1 ∧
        (emitList j l).drop cap = emitList (j + m) (l.drop m) := by
  induction l with
  | nil =>
    intro j cap it h
    simp [emitList] at h
  | cons pe rest ih =>
    intro j cap it h
    have hskip : pe.path = some none ∨ pe.path = none →
        ∃ m, 1 ≤ m ∧ m ≤ (pe :: rest).length ∧
          (emitList j (pe :: rest)).take cap = emitList j ((pe :: rest).take m) ∧
          it.offset = j + m + 1 ∧
          (emitList j (pe :: rest)).drop cap = emitList (j + m) ((pe :: rest).drop m) := by
      intro hp
      rw [emitList_cons_skip j pe rest hp] at h
      obtain ⟨m, hm1, hm2, he, ho, hd⟩ := ih (j + 1) cap it h
      refine ⟨m + 1, by omega, by simp only [List.length_cons]; omega, ?_, by omega, ?_⟩
      · rw [emitList_cons_skip j pe rest hp, List.take_succ_cons,
          emitList_cons_skip j pe (rest.take m) hp, he]
      · rw [emitList_cons_skip j pe rest hp, List.drop_succ_cons, hd]
        have : j + 1 + m = j + (m + 1) := by omega
        rw [this]
    cases hp : pe.path with
    | none => exact hskip (Or.inr hp)
    | some o =>
      cases o with
      | none => exact hskip (Or.inl hp)
      | some s =>
        rw [emitList_cons_name j pe rest s hp] at h
        cases cap with
        | zero => simp at h
        | succ cap' =>
          rw [List.take_succ_cons] at h
          cases hxs : (emitList (j + 1) rest).take cap' with
          | nil =>
            rw [hxs] at h
            simp only [List.getLast?_singleton, Option.some.injEq] at h
            subst h
            have hdrop : (emitList (j + 1) rest).drop cap' = emitList (j + 1) rest := by
              rcases List.take_eq_nil_iff.mp hxs with h0 | h0
              · rw [h0, List.drop_zero]
              · rw [h0]
                simp
            refine ⟨1, le_refl 1, by simp, ?_, by simp, ?_⟩
            · rw [emitList_cons_name j pe rest s hp, List.take_succ_cons, hxs,
                List.take_succ_cons, List.take_zero]
              rw [emitList_cons_name j pe [] s hp]
              rfl
            · rw [emitList_cons_name j pe rest s hp, List.drop_succ_cons, hdrop,
                List.drop_succ_cons, List.drop_zero]
          | cons y ys =>
            rw [hxs, List.getLast?_cons_cons] at h
            rw [← hxs] at h
            obtain ⟨m, hm1, hm2, he, ho, hd⟩ := ih (j + 1) cap' it h
            refine ⟨m + 1, by omega, by simp only [List.length_cons]; omega, ?_, by omega, ?_⟩
            · rw [emitList_cons_name j pe rest s hp, List.take_succ_cons, he,
                List.take_succ_cons, emitList_cons_name j pe (rest.take m) s hp]
            · rw [emitList_cons_name j pe rest s hp, List.drop_succ_cons, hd,
                List.drop_succ_cons]
              have : j + 1 + m = j + (m + 1) := by omega
              rw [this]

/-- The snapshot listing of `readdir_root`, recast as a children
iteration: snapshot `k` behaves like a child node with inode `k + 2`
and a one-component directory path named after it.  (Proof scaffolding:
`rootLoop` below is shown to be this iteration's `childLoop`.) -/
def rootPEFrom : Nat → List SnapshotData → List PathEntryM
  | _, [] => []
  | k, s :: rest =>
    ⟨.mk 0 (k + 2) [], ⟨[.normal s.pathName], .dir, none, none, none, 0, none, none⟩, 0⟩ ::
      rootPEFrom (k + 1) rest

theorem rootPEFrom_drop (l : List SnapshotData) :
    ∀ k m, (rootPEFrom k l).drop m = rootPEFrom (k + m) (l.drop m) := by
  induction l with
  | nil => intro k m; simp [rootPEFrom]
  | cons s rest ih =>
    intro k m
    cases m with
    | zero => simp
    | succ m' =>
      simp only [rootPEFrom, List.drop_succ_cons, ih (k + 1) m']
      have : k + 1 + m' = k + (m' + 1) := by omega
      rw [this]

theorem rootLoop_as_childLoop (l : List SnapshotData) :
    ∀ j buf, childLoop j (rootPEFrom j l) buf = some (rootLoop l (j + 1) buf) := by
  induction l with
  | nil => intro j buf; simp [rootPEFrom, childLoop, rootLoop]
  | cons s rest ih =>
    intro j buf
    have hpath : (⟨TreeNode.mk 0 (j + 2) [],
        ⟨[.normal s.pathName], .dir, none, none, none, 0, none, none⟩, 0⟩ : PathEntryM).path =
        some (some s.pathName) := rfl
    simp only [rootPEFrom, childLoop, hpath, rootLoop, PathEntryM.ino, TreeNode.ino_mk,
      from_entry_type]
    cases hadd : buf.add ⟨j + 2, j + 2, .directory, s.pathName⟩ with
    | mk buf1 full =>
      cases full with
      | true => simp
      | false => simpa using ih (j + 1) buf1

/-- The generic pagination driver for listings backed by `emitList`. -/
theorem drive_child_pages (g : RuplicityFs) (d : Nat) (children : List PathEntryM)
    (cap : Nat) (hcap : 1 ≤ cap)
    (hpage : ∀ c cap', 1 ≤ c →
        g.readdir d c cap' =
          (.ok ((emitList (c - 1) (children.drop (c - 1))).take cap'), g)) :
    ∀ fuel c, 1 ≤ c →
      (emitList (c - 1) (children.drop (c - 1))).length + 1 ≤ fuel →
      drivePages fuel g d cap c = emitList (c - 1) (children.drop (c - 1)) := by
  intro fuel
  induction fuel with
  | zero =>
    intro c hc hlen
    omega
  | succ fuel ih =>
    intro c hc hlen
    cases hl : ((emitList (c - 1) (children.drop (c - 1))).take cap).getLast? with
    | none =>
      simp only [drivePages, hpage c cap hc, hl]
      have hnil := List.getLast?_eq_none.mp hl
      have hE : emitList (c - 1) (children.drop (c - 1)) = [] := by
        rcases List.take_eq_nil_iff.mp hnil with h | h
        · omega
        · exact h
      rw [hE]
    | some it =>
      simp only [drivePages, hpage c cap hc, hl]
      obtain ⟨m, hm1, hm2, he, ho, hd⟩ :=
        emit_take_last (children.drop (c - 1)) (c - 1) cap it hl
      have hc' : 1 ≤ it.offset := by omega
      have hdrop : children.drop (it.offset - 1) = (children.drop (c - 1)).drop m := by
        rw [List.drop_drop]
        congr 1
        omega
      have hE' : emitList (it.offset - 1) (children.drop (it.offset - 1)) =
          (emitList (c - 1) (children.drop (c - 1))).drop cap := by
        rw [hdrop, hd]
        have : it.offset - 1 = c - 1 + m := by omega
        rw [this]
      have hne : emitList (c - 1) (children.drop (c - 1)) ≠ [] := by
        intro hcon
        rw [hcon] at hl
        simp at hl
      have hlen' : (emitList (it.offset - 1) (children.drop (it.offset - 1))).length + 1 ≤
          fuel := by
        rw [hE', List.length_drop]
        have h1 : 1 ≤ (emitList (c - 1) (children.drop (c - 1))).length :=
          List.length_pos.mpr hne
        omega
      rw [ih it.offset hc' hlen', hE', List.take_append_drop]

/-- Resumability and pagination for any directory whose `readdir` pages
are `[".", ".."]` followed by an `emitList` window (all three directory
kinds have this shape). -/
theorem readdir_pages_spec (g₀ g : RuplicityFs) (d : Nat) (it0 it1 : DirItem)
    (children : List PathEntryM) (L : List DirItem)
    (h0off : it0.offset = 0) (h1off : it1.offset = 1)
    (hpage0 : ∀ cap, 2 ≤ cap →
        g₀.readdir d 0 cap = (.ok (it0 :: it1 :: (emitList 0 children).take (cap - 2)), g))
    (hpage : ∀ c cap, 1 ≤ c →
        g.readdir d c cap = (.ok ((emitList (c - 1) (children.drop (c - 1))).take cap), g))
    (hL : L = it0 :: it1 :: emitList 0 children) :
    (∀ c cap', 1 ≤ c → (c = 1 ∨ ∃ it ∈ L, it.offset = c) → L.length ≤ cap' →
        g.readdir d c cap' = (.ok (L.filter (fun it => c < it.offset)), g)) ∧
    (∀ cap fuel, 3 ≤ cap → L.length + 1 ≤ fuel →
        drivePages fuel g₀ d cap 0 = L) := by
  constructor
  · intro c cap' hc hvalid hcap'
    have hk : c - 1 ≤ children.length := by
      rcases hvalid with rfl | ⟨it, hitL, hito⟩
      · simp
      · rw [hL] at hitL
        rcases List.mem_cons.mp hitL with rfl | hitL'
        · rw [h0off] at hito
          omega
        · rcases List.mem_cons.mp hitL' with rfl | hitE
          · rw [h1off] at hito
            omega
          · have := emitList_offset_ub children 0 it hitE
            omega
    have hsuffix := emitList_filter_suffix children 0 (c - 1) hk
    simp only [Nat.zero_add] at hsuffix
    have hc1 : c - 1 + 1 = c := by omega
    rw [hc1] at hsuffix
    have e0 : ¬ c < it0.offset := by rw [h0off]; omega
    have e1 : ¬ c < it1.offset := by rw [h1off]; omega
    have hfilter : L.filter (fun it => c < it.offset) =
        emitList (c - 1) (children.drop (c - 1)) := by
      rw [hL]
      simp only [List.filter_cons, decide_eq_true_eq, e0, e1, if_false]
      exact hsuffix
    have hlen : (emitList (c - 1) (children.drop (c - 1))).length ≤ cap' := by
      rw [← hsuffix]
      have h1 := List.length_filter_le (fun it => decide (c < it.offset)) (emitList 0 children)
      rw [hL] at hcap'
      simp only [List.length_cons] at hcap'
      omega
    rw [hpage c cap' hc, List.take_of_length_le hlen, hfilter]
  · intro cap fuel hcap hfuel
    cases fuel with
    | zero => omega
    | succ fuel =>
      have h2 : 2 ≤ cap := by omega
      simp only [drivePages, hpage0 cap h2]
      have hLlen : L.length = (emitList 0 children).length + 2 := by
        rw [hL]
        simp
      cases hTl : ((emitList 0 children).take (cap - 2)).getLast? with
      | none =>
        have hTnil : (emitList 0 children).take (cap - 2) = [] :=
          List.getLast?_eq_none.mp hTl
        have hE : emitList 0 children = [] := by
          rcases List.take_eq_nil_iff.mp hTnil with h | h
          · omega
          · exact h
        have hlast : (it0 :: it1 :: (emitList 0 children).take (cap - 2)).getLast? =
            some it1 := by
          rw [hTnil]
          rfl
        simp only [hlast]
        have hdrive := drive_child_pages g d children cap (by omega) hpage fuel
          it1.offset (by omega)
          (by
            rw [h1off]
            simp only [Nat.sub_self, List.drop_zero, hE]
            simp
            omega)
        rw [hdrive, h1off]
        simp only [Nat.sub_self, List.drop_zero, hE]
        rw [hL, hE]
        simp
      | some it =>
        have hTne : (emitList 0 children).take (cap - 2) ≠ [] := by
          intro hcon
          rw [hcon] at hTl
          exact Option.noConfusion hTl
        have hlast : (it0 :: it1 :: (emitList 0 children).take (cap - 2)).getLast? =
            some it := by
          cases hT : (emitList 0 children).take (cap - 2) with
          | nil => exact absurd hT hTne
          | cons y ys =>
            rw [List.getLast?_cons_cons]
            rw [← hT, ← hTl, hT, List.getLast?_cons_cons]
        simp only [hlast]
        obtain ⟨m, hm1, hm2, he, ho, hd⟩ := emit_take_last children 0 (cap - 2) it hTl
        have hoff1 : it.offset - 1 = m := by omega
        have hEdrop : emitList (it.offset - 1) (children.drop (it.offset - 1)) =
            (emitList 0 children).drop (cap - 2) := by
          rw [hoff1, hd]
          simp
        have hdrive := drive_child_pages g d children cap (by omega) hpage fuel
          it.offset (by omega)
          (by
            rw [hEdrop, List.length_drop]
            omega)
        rw [hdrive, hEdrop, hL]
        simp [List.take_append_drop]

theorem add_cap (b : ReplyBuf) (it : DirItem) : (b.add it).1.cap = b.cap := by
  by_cases h : b.items.length < b.cap <;> simp [ReplyBuf.add, h]

theorem add_fits (b : ReplyBuf) (it : DirItem) (h : b.items.length < b.cap) :
    b.add it = ({ b with items := b.items ++ [it] }, false) := by
  simp [ReplyBuf.add, h]

/-- With room for both, the `.`/`..` preamble buffer holds exactly the two dots. -/
theorem dots_buf_big (cap : Nat) (it0 it1 : DirItem) (h : 2 ≤ cap) :
    ((((ReplyBuf.mk cap []).add it0).1.add it1).1) = ⟨cap, [it0, it1]⟩ := by
  rw [add_fits (ReplyBuf.mk cap []) it0 (by simp; omega)]
  rw [add_fits _ it1 (by simp; omega)]
  rfl

/-- The preamble buffer's length in general. -/
theorem dots_buf_len (cap : Nat) (it0 it1 : DirItem) :
    (((((ReplyBuf.mk cap []).add it0).1.add it1).1)).items.length = min 2 cap := by
  match cap with
  | 0 => simp [ReplyBuf.add]
  | 1 => simp [ReplyBuf.add]
  | (n + 2) =>
    rw [dots_buf_big (n + 2) it0 it1 (by omega)]
    simp only [List.length_cons, List.length_nil]
    omega

theorem childLoop_success_inv2 {lst : List PathEntryM} {j : Nat} {buf buf' : ReplyBuf}
    (h : childLoop j lst buf = some buf') (hlt : buf'.items.length < buf.cap) :
    NoPanic lst ∧ buf' = ⟨buf.cap, buf.items ++ emitList j lst⟩ := by
  obtain ⟨c, i⟩ := buf
  exact childLoop_success_inv h hlt

/-- Inverting a successful, non-full page 0: capacity was at least 2, the
iteration cannot panic, and the page is the two dots followed by the full
emission. -/
theorem page0_inv (cap₀ : Nat) (it0 it1 : DirItem) (children : List PathEntryM)
    (R : ReplyBuf)
    (h : childLoop 0 children ((((ReplyBuf.mk cap₀ []).add it0).1.add it1).1) = some R)
    (hfull : R.items.length < cap₀) :
    NoPanic children ∧ 2 ≤ cap₀ ∧ R.items = it0 :: it1 :: emitList 0 children := by
  have hcap : ((((ReplyBuf.mk cap₀ []).add it0).1.add it1).1).cap = cap₀ := by
    rw [add_cap, add_cap]
  have hlen := dots_buf_len cap₀ it0 it1
  obtain ⟨hnp, hR⟩ := childLoop_success_inv2 h (by rw [hcap]; exact hfull)
  have hlenR : R.items.length =
      ((((ReplyBuf.mk cap₀ []).add it0).1.add it1).1).items.length +
        (emitList 0 children).length := by
    rw [hR]
    simp
  have h2 : 2 ≤ cap₀ := by omega
  refine ⟨hnp, h2, ?_⟩
  rw [hR, hcap, dots_buf_big cap₀ it0 it1 h2]
  simp

theorem rootPEFrom_noPanic (l : List SnapshotData) : ∀ k, NoPanic (rootPEFrom k l) := by
  induction l with
  | nil =>
    intro k pe hpe
    simp [rootPEFrom] at hpe
  | cons s rest ih =>
    intro k pe hpe
    simp only [rootPEFrom] at hpe
    rcases List.mem_cons.mp hpe with rfl | hpe'
    · intro hcon
      exact Option.noConfusion hcon
    · exact ih (k + 1) pe hpe'

/-- Materialising a tree is idempotent: re-asking for the same sid on the
returned state yields the same tree and leaves the state fixed; the
snapshot table and the backup are untouched. -/
theorem tree_for_snapshot_idem (fs : RuplicityFs) (sid : Nat) (t : SnapshotTree)
    (snap : SnapshotData) (fs₁ : RuplicityFs)
    (h : fs.tree_for_snapshot sid = some (t, snap, fs₁)) :
    fs₁.tree_for_snapshot sid = some (t, snap, fs₁) ∧
    fs₁.snapshots = fs.snapshots ∧ fs₁.backup = fs.backup := by
  cases hg : fs.trees.get? sid with
  | none =>
    simp only [RuplicityFs.tree_for_snapshot, hg] at h
    exact Option.noConfusion h
  | some o =>
    cases o with
    | some t' =>
      cases hs : fs.snapshot_from_sid sid with
      | none =>
        simp only [RuplicityFs.tree_for_snapshot, hg, hs] at h
        exact Option.noConfusion h
      | some snap' =>
        simp only [RuplicityFs.tree_for_snapshot, hg, hs, Option.some.injEq,
          Prod.mk.injEq] at h
        obtain ⟨h1, h2, h3⟩ := h
        subst h1
        subst h2
        subst h3
        refine ⟨?_, rfl, rfl⟩
        simp only [RuplicityFs.tree_for_snapshot, hg, hs]
    | none =>
      cases hs : fs.snapshot_from_sid sid with
      | none =>
        simp only [RuplicityFs.tree_for_snapshot, hg, hs] at h
        exact Option.noConfusion h
      | some snap' =>
        simp only [RuplicityFs.tree_for_snapshot, hg, hs, Option.some.injEq,
          Prod.mk.injEq] at h
        obtain ⟨h1, h2, h3⟩ := h
        subst h2
        subst h1
        subst h3
        have hlt : sid < fs.trees.length := by
          by_contra hcon
          rw [List.get?_eq_none.mpr (by omega)] at hg
          exact Option.noConfusion hg
        refine ⟨?_, rfl, rfl⟩
        simp only [RuplicityFs.snapshot_from_sid] at hs
        simp only [RuplicityFs.tree_for_snapshot, RuplicityFs.snapshot_from_sid,
          List.get?_set_eq_of_lt _ hlt, hs]

/-- Page 0 of the root directory, with room for the dots. -/
theorem readdir_root_page0 (fs : RuplicityFs) (cap : Nat) (h2 : 2 ≤ cap) :
    fs.readdir 1 0 cap =
      (.ok ((⟨1, 0, .directory, "."⟩ : DirItem) :: (⟨1, 1, .directory, ".."⟩ : DirItem) ::
        (emitList 0 (rootPEFrom 0 fs.backup)).take (cap - 2)), fs) := by
  simp only [RuplicityFs.readdir, RuplicityFs.readdir_root, if_pos rfl, if_true,
    Nat.sub_self, List.drop_zero]
  rw [dots_buf_big cap _ _ h2]
  have h := rootLoop_as_childLoop fs.backup 0
    ⟨cap, [(⟨1, 0, .directory, "."⟩ : DirItem), (⟨1, 1, .directory, ".."⟩ : DirItem)]⟩
  rw [childLoop_eq (rootPEFrom 0 fs.backup) 0 cap _ (rootPEFrom_noPanic fs.backup 0)] at h
  rw [show (0 : Nat) + 1 = 1 from rfl] at h
  injection h with h
  rw [← h]
  simp

/-- A later page of the root directory: the window of the emission after
the resumption cookie. -/
theorem readdir_root_page (fs : RuplicityFs) (c cap : Nat) (hc : 1 ≤ c) :
    fs.readdir 1 c cap =
      (.ok ((emitList (c - 1) ((rootPEFrom 0 fs.backup).drop (c - 1))).take cap), fs) := by
  have hc0 : c ≠ 0 := by omega
  simp only [RuplicityFs.readdir, RuplicityFs.readdir_root, if_pos rfl, if_true,
    if_neg hc0]
  have h := rootLoop_as_childLoop (fs.backup.drop (c - 1)) (c - 1) ⟨cap, []⟩
  rw [childLoop_eq (rootPEFrom (c - 1) (fs.backup.drop (c - 1))) (c - 1) cap []
    (rootPEFrom_noPanic (fs.backup.drop (c - 1)) (c - 1)),
    show c - 1 + 1 = c from by omega] at h
  injection h with h
  rw [rootPEFrom_drop fs.backup 0 (c - 1), Nat.zero_add, ← h]
  simp

/-- Page 0 of a snapshot directory. -/
theorem readdir_snapshot_page0 (fs fs₁ : RuplicityFs) (d cap : Nat)
    (tree : SnapshotTree) (snap : SnapshotData) (children : List PathEntryM)
    (hne : d ≠ 1) (hsnap : fs.snapshots.is_snapshot d)
    (ht : fs.tree_for_snapshot (sid_from_ino d) = some (tree, snap, fs₁))
    (hch : tree.childrenM snap.entries = some children)
    (hnp : NoPanic children) (h2 : 2 ≤ cap) :
    fs.readdir d 0 cap =
      (.ok ((⟨d, 0, .directory, "."⟩ : DirItem) :: (⟨1, 1, .directory, ".."⟩ : DirItem) ::
        (emitList 0 children).take (cap - 2)), fs₁) := by
  simp only [RuplicityFs.readdir, if_neg hne, if_pos hsnap, RuplicityFs.readdir_snapshot,
    if_pos rfl, if_true, ht, hch, Nat.sub_self, List.drop_zero]
  rw [dots_buf_big cap _ _ h2]
  rw [childLoop_eq children 0 cap
    [(⟨d, 0, .directory, "."⟩ : DirItem), (⟨1, 1, .directory, ".."⟩ : DirItem)] hnp]
  simp

/-- A later page of a snapshot directory, on a state that already holds
the tree (the shape `tree_for_snapshot` settles into by
`tree_for_snapshot_idem`). -/
theorem readdir_snapshot_page (fs : RuplicityFs) (d c cap : Nat)
    (tree : SnapshotTree) (snap : SnapshotData) (children : List PathEntryM)
    (hne : d ≠ 1) (hsnap : fs.snapshots.is_snapshot d)
    (ht : fs.tree_for_snapshot (sid_from_ino d) = some (tree, snap, fs))
    (hch : tree.childrenM snap.entries = some children)
    (hnp : NoPanic children) (hc : 1 ≤ c) :
    fs.readdir d c cap =
      (.ok ((emitList (c - 1) (children.drop (c - 1))).take cap), fs) := by
  have hc0 : c ≠ 0 := by omega
  simp only [RuplicityFs.readdir, if_neg hne, if_pos hsnap, RuplicityFs.readdir_snapshot,
    if_neg hc0, ht, hch]
  rw [childLoop_eq (children.drop (c - 1)) (c - 1) cap [] (noPanic_drop hnp (c - 1))]
  simp

/-- Page 0 of an entry directory. -/
theorem readdir_entry_page0 (fs : RuplicityFs) (d cap : Nat)
    (tree : SnapshotTree) (sid : Nat) (parent_entry : NodeEntry) (snap : SnapshotData)
    (children : List PathEntryM)
    (hne : d ≠ 1) (hsnap : ¬ fs.snapshots.is_snapshot d)
    (hft : fs.find_tree_with_ino d = some (tree, sid))
    (hfn : tree.find_node d = some parent_entry)
    (hss : fs.snapshot_from_sid sid = some snap)
    (hch : parent_entry.childrenM snap.entries = some children)
    (hnp : NoPanic children) (h2 : 2 ≤ cap) :
    fs.readdir d 0 cap =
      (.ok ((⟨d, 0, .directory, "."⟩ : DirItem) ::
        (⟨tree.parentIno d, 1, .directory, ".."⟩ : DirItem) ::
        (emitList 0 children).take (cap - 2)), fs) := by
  simp only [RuplicityFs.readdir, if_neg hne, if_neg hsnap, RuplicityFs.readdir_entry,
    hft, hfn, hss, hch, if_pos rfl, if_true, Nat.sub_self, List.drop_zero]
  rw [dots_buf_big cap _ _ h2]
  rw [childLoop_eq children 0 cap
    [(⟨d, 0, .directory, "."⟩ : DirItem),
     (⟨tree.parentIno d, 1, .directory, ".."⟩ : DirItem)] hnp]
  simp

/-- A later page of an entry directory. -/
theorem readdir_entry_page (fs : RuplicityFs) (d c cap : Nat)
    (tree : SnapshotTree) (sid : Nat) (parent_entry : NodeEntry) (snap : SnapshotData)
    (children : List PathEntryM)
    (hne : d ≠ 1) (hsnap : ¬ fs.snapshots.is_snapshot d)
    (hft : fs.find_tree_with_ino d = some (tree, sid))
    (hfn : tree.find_node d = some parent_entry)
    (hss : fs.snapshot_from_sid sid = some snap)
    (hch : parent_entry.childrenM snap.entries = some children)
    (hnp : NoPanic children) (hc : 1 ≤ c) :
    fs.readdir d c cap =
      (.ok ((emitList (c - 1) (children.drop (c - 1))).take cap), fs) := by
  have hc0 : c ≠ 0 := by omega
  simp only [RuplicityFs.readdir, if_neg hne, if_neg hsnap, RuplicityFs.readdir_entry,
    hft, hfn, hss, hch, if_neg hc0]
  rw [childLoop_eq (children.drop (c - 1)) (c - 1) cap [] (noPanic_drop hnp (c - 1))]
  simp

/-- **C4**: for every directory inode `d` (root, snapshot or entry
directory), if a page-0 `readdir` succeeds without filling the reply
buffer — so its items `L` are the full deterministic listing, `.` and
`..` at cookies 0 and 1 followed by every child in tree order at dense
cookies from 2 — then (a) re-issuing with any cookie `c` that appears in
`L` (or the post-`..` cookie 1) returns exactly the suffix of `L` after
cookie `c`, and (b) the kernel walk that re-issues with each page's last
cookie until a page is empty concatenates to exactly `L`: every child is
listed exactly once, in order. -/
theorem claim_C4 (fs fs₁ : RuplicityFs) (d cap₀ : Nat) (L : List DirItem)
    (h0 : fs.readdir d 0 cap₀ = (.ok L, fs₁))
    (hfull : L.length < cap₀) :
    (∀ c cap', 1 ≤ c → (c = 1 ∨ ∃ it ∈ L, it.offset = c) → L.length ≤ cap' →
        fs₁.readdir d c cap' = (.ok (L.filter (fun it => c < it.offset)), fs₁)) ∧
    (∀ cap fuel, 3 ≤ cap → L.length + 1 ≤ fuel →
        drivePages fuel fs d cap 0 = L) := by
  by_cases hroot : d = 1
  · subst hroot
    simp only [RuplicityFs.readdir, RuplicityFs.readdir_root, if_pos rfl, if_true,
      Nat.sub_self, List.drop_zero, Prod.mk.injEq, FsReply.ok.injEq] at h0
    obtain ⟨hL, rfl⟩ := h0
    have hcl := rootLoop_as_childLoop fs.backup 0
      ((((ReplyBuf.mk cap₀ []).add ⟨1, 0, .directory, "."⟩).1.add
        ⟨1, 1, .directory, ".."⟩).1)
    rw [show (0 : Nat) + 1 = 1 from rfl] at hcl
    obtain ⟨hnp, h2, hitems⟩ := page0_inv cap₀ _ _ (rootPEFrom 0 fs.backup) _ hcl
      (by rw [hL]; exact hfull)
    exact readdir_pages_spec fs fs 1 ⟨1, 0, .directory, "."⟩ ⟨1, 1, .directory, ".."⟩
      (rootPEFrom 0 fs.backup) L rfl rfl
      (fun cap hc => readdir_root_page0 fs cap hc)
      (fun c cap hc => readdir_root_page fs c cap hc)
      (by rw [← hL, hitems])
  · by_cases hsnap : fs.snapshots.is_snapshot d
    · simp only [RuplicityFs.readdir, if_neg hroot, if_pos hsnap,
        RuplicityFs.readdir_snapshot, if_pos rfl, if_true, Nat.sub_self,
        List.drop_zero] at h0
      cases ht : fs.tree_for_snapshot (sid_from_ino d) with
      | none =>
        simp only [ht] at h0
        exact FsReply.noConfusion (congrArg Prod.fst h0)
      | some trip =>
        obtain ⟨tree, snap, fs'⟩ := trip
        simp only [ht] at h0
        cases hch : tree.childrenM snap.entries with
        | none =>
          simp only [hch] at h0
          exact FsReply.noConfusion (congrArg Prod.fst h0)
        | some children =>
          simp only [hch] at h0
          cases hcl : childLoop 0 children
              ((((ReplyBuf.mk cap₀ []).add ⟨d, 0, .directory, "."⟩).1.add
                ⟨1, 1, .directory, ".."⟩).1) with
          | none =>
            simp only [hcl] at h0
            exact FsReply.noConfusion (congrArg Prod.fst h0)
          | some buf =>
            simp only [hcl, Prod.mk.injEq, FsReply.ok.injEq] at h0
            obtain ⟨hL, rfl⟩ := h0
            obtain ⟨hnp, h2, hitems⟩ := page0_inv cap₀ _ _ children buf hcl
              (by rw [hL]; exact hfull)
            obtain ⟨hidem, hsnaps, hback⟩ :=
              tree_for_snapshot_idem fs (sid_from_ino d) tree snap fs' ht
            exact readdir_pages_spec fs fs' d ⟨d, 0, .directory, "."⟩
              ⟨1, 1, .directory, ".."⟩ children L rfl rfl
              (fun cap hc =>
                readdir_snapshot_page0 fs fs' d cap tree snap children hroot hsnap
                  ht hch hnp hc)
              (fun c cap hc =>
                readdir_snapshot_page fs' d c cap tree snap children hroot
                  (by rw [hsnaps]; exact hsnap) hidem hch hnp hc)
              (by rw [← hL, hitems])
    · simp only [RuplicityFs.readdir, if_neg hroot, if_neg hsnap,
        RuplicityFs.readdir_entry, if_pos rfl, if_true, Nat.sub_self,
        List.drop_zero, Prod.mk.injEq] at h0
      obtain ⟨h0, rfl⟩ := h0
      cases hft : fs.find_tree_with_ino d with
      | none =>
        rw [hft] at h0
        exact FsReply.noConfusion h0
      | some p =>
        obtain ⟨tree, sid⟩ := p
        rw [hft] at h0
        cases hfn : tree.find_node d with
        | none =>
          simp only [hfn] at h0
          exact FsReply.noConfusion h0
        | some parent_entry =>
          simp only [hfn] at h0
          cases hss : fs.snapshot_from_sid sid with
          | none =>
            simp only [hss] at h0
            exact FsReply.noConfusion h0
          | some snap =>
            simp only [hss] at h0
            cases hch : parent_entry.childrenM snap.entries with
            | none =>
              simp only [hch] at h0
              exact FsReply.noConfusion h0
            | some children =>
              simp only [hch] at h0
              cases hcl : childLoop 0 children
                  ((((ReplyBuf.mk cap₀ []).add ⟨d, 0, .directory, "."⟩).1.add
                    ⟨tree.parentIno d, 1, .directory, ".."⟩).1) with
              | none =>
                simp only [hcl] at h0
                exact FsReply.noConfusion h0
              | some buf =>
                simp only [hcl, FsReply.ok.injEq] at h0
                obtain ⟨hnp, h2, hitems⟩ := page0_inv cap₀ _ _ children buf hcl
                  (by rw [h0]; exact hfull)
                exact readdir_pages_spec fs fs d ⟨d, 0, .directory, "."⟩
                  ⟨tree.parentIno d, 1, .directory, ".."⟩ children L rfl rfl
                  (fun cap hc =>
                    readdir_entry_page0 fs d cap tree sid parent_entry snap children
                      hroot hsnap hft hfn hss hch hnp hc)
                  (fun c cap hc =>
                    readdir_entry_page fs d c cap tree sid parent_entry snap children
                      hroot hsnap hft hfn hss hch hnp hc)
                  (by rw [← h0, hitems])

/-- The full root listing of `c3Backup`. -/
def c4L : List DirItem :=
  [⟨1, 0, .directory, "."⟩, ⟨1, 1, .directory, ".."⟩,
   ⟨2, 2, .directory, "snap0"⟩, ⟨3, 3, .directory, "snap1"⟩]

/-- Witness for C4: the root directory of a two-snapshot backup, read
with capacity 10. -/
theorem claim_C4_witness :
    (RuplicityFs.new c3Backup).readdir 1 0 10 = (.ok c4L, RuplicityFs.new c3Backup) ∧
    c4L.length < 10 ∧
    ((∀ c cap', 1 ≤ c → (c = 1 ∨ ∃ it ∈ c4L, it.offset = c) → c4L.length ≤ cap' →
        (RuplicityFs.new c3Backup).readdir 1 c cap' =
          (.ok (c4L.filter (fun it => c < it.offset)), RuplicityFs.new c3Backup)) ∧
     (∀ cap fuel, 3 ≤ cap → c4L.length + 1 ≤ fuel →
        drivePages fuel (RuplicityFs.new c3Backup) 1 cap 0 = c4L)) :=
  ⟨rfl, by decide,
   claim_C4 (RuplicityFs.new c3Backup) (RuplicityFs.new c3Backup) 1 10 c4L rfl (by decide)⟩
